import Mathlib

/-!
Verification development for the streaming multipart/form-data parser of the
ovr repository (`packages/ovr/src/multipart/index.ts`, together with the
header utilities of `packages/ovr/src/util`).

Byte strings are modelled as `List Nat` (one natural number per byte), the
request body reader as the list of its remaining chunks, and the parser's
mutable private fields as a record threaded through every operation.  The
live region of the `Uint8Array` buffer (`memory[0 .. valid)`) is modelled by
the list `mem`, so `valid = mem.length`; bytes past `valid` are never read by
the source.  Loops are written as fuel-indexed structural recursions; every
wrapper supplies fuel that is provably sufficient, so each wrapper computes
the loop's exact semantics and stays executable by `decide`.
-/

/-- Needle: a sequence of bytes to find within the stream (class `Needle`).
The constructor always receives a non-empty pattern, so the byte list is
non-empty. -/
structure Needle where
  bytes : List Nat
  nonempty : bytes ≠ []

/-- Index of the last character in the needle (field `end`). -/
def Needle.endIdx (nd : Needle) : Nat := nd.bytes.length - 1

/-- One iteration of the `Needle` constructor loop acting on the `skip`
table: the entry for byte `bytes[i]` is overwritten with `end - i` unless
`i` is the last index.  This is the written value before the byte array's
truncation; the stored value is this mod 256 (see `skipStepU8`). -/
def skipStep (bytes : List Nat) (sk : Nat → Nat) (i : Nat) (b : Nat) : Nat :=
  if i = bytes.length - 1 then sk b
  else if b = bytes.getD i 0 then bytes.length - 1 - i else sk b

/-- The `skip` table after the constructor loop has processed indices
`0, …, n-1`, starting from the default table filled with the pattern
length: the idealized table holding each entry's untruncated value. -/
def skipAux (bytes : List Nat) (n : Nat) : Nat → Nat :=
  (List.range n).foldl (skipStep bytes) (fun _ => bytes.length)

/-- Idealized `skip` table of the `Needle` constructor: every entry's value
before the byte array's mod-256 truncation.  The table as stored is
`skipTableU8` below; for patterns shorter than 256 bytes the two agree. -/
def skipTable (bytes : List Nat) : Nat → Nat := skipAux bytes bytes.length

/-- Idealized bad-character shift of the needle: the value of the `skip`
entry before the byte array's mod-256 truncation (`Needle.skipU8` is the
stored entry). -/
def Needle.skip (nd : Needle) (b : Nat) : Nat := skipTable nd.bytes b

/-- One iteration of the `Needle` constructor loop on the stored table:
the field `skip` is a 256-entry `Uint8Array`, so the assignment of
`end - i` stores that value mod 256. -/
def skipStepU8 (bytes : List Nat) (sk : Nat → Nat) (i : Nat) (b : Nat) : Nat :=
  if i = bytes.length - 1 then sk b
  else if b = bytes.getD i 0 then (bytes.length - 1 - i) % 256 else sk b

/-- The stored `skip` table after the constructor loop has processed
indices `0, …, n-1`, starting from the fill of the pattern length, which
the byte array likewise holds mod 256. -/
def skipAuxU8 (bytes : List Nat) (n : Nat) : Nat → Nat :=
  (List.range n).foldl (skipStepU8 bytes) (fun _ => bytes.length % 256)

/-- Final stored `skip` table of the `Needle` constructor (field `skip`,
a `Uint8Array` of 256 entries). -/
def skipTableU8 (bytes : List Nat) : Nat → Nat := skipAuxU8 bytes bytes.length

/-- Bad-character shift table of the needle as stored (field `skip`): each
entry is a byte, so it holds its written value mod 256. -/
def Needle.skipU8 (nd : Needle) (b : Nat) : Nat := skipTableU8 nd.bytes b

/-- Loc table of the `Needle` constructor (field `loc`): all positions at
which byte `b` occurs in the pattern, in ascending order (the loop pushes
indices in increasing order; a byte that never occurs gets the empty
list, matching the `undefined` entry in the source). -/
def Needle.loc (nd : Needle) (b : Nat) : List Nat :=
  (List.range nd.bytes.length).filter (fun i => nd.bytes.getD i 0 = b)

theorem Needle.length_pos (nd : Needle) : 0 < nd.bytes.length :=
  List.length_pos.mpr nd.nonempty

theorem Needle.endIdx_lt (nd : Needle) : nd.endIdx < nd.bytes.length := by
  have := nd.length_pos
  unfold Needle.endIdx
  omega

theorem skipAux_succ (bytes : List Nat) (n : Nat) :
    skipAux bytes (n + 1) = skipStep bytes (skipAux bytes n) n := by
  unfold skipAux
  rw [List.range_succ, List.foldl_append]
  rfl

theorem skipAuxU8_succ (bytes : List Nat) (n : Nat) :
    skipAuxU8 bytes (n + 1) = skipStepU8 bytes (skipAuxU8 bytes n) n := by
  unfold skipAuxU8
  rw [List.range_succ, List.foldl_append]
  rfl

/-- The stored table is the idealized table truncated entrywise: every
write stores its value mod 256 and no entry is read during construction,
so the truncation commutes with the loop. -/
theorem skipAuxU8_eq_mod (bytes : List Nat) :
    ∀ n b, skipAuxU8 bytes n b = skipAux bytes n b % 256 := by
  intro n
  induction n with
  | zero => intro b; rfl
  | succ n ih =>
    intro b
    rw [skipAuxU8_succ, skipAux_succ]
    unfold skipStepU8 skipStep
    by_cases h1 : n = bytes.length - 1
    · rw [if_pos h1, if_pos h1]
      exact ih b
    · rw [if_neg h1, if_neg h1]
      by_cases h2 : b = bytes.getD n 0
      · rw [if_pos h2, if_pos h2]
      · rw [if_neg h2, if_neg h2]
        exact ih b

theorem Needle.skipU8_eq_mod (nd : Needle) (b : Nat) :
    nd.skipU8 b = nd.skip b % 256 :=
  skipAuxU8_eq_mod nd.bytes nd.bytes.length b

theorem skipAux_le (bytes : List Nat) :
    ∀ n b, skipAux bytes n b ≤ bytes.length := by
  intro n
  induction n with
  | zero => intro b; simp [skipAux]
  | succ n ih =>
    intro b
    rw [congrFun (skipAux_succ bytes n) b]
    unfold skipStep
    split
    · exact ih b
    · split
      · omega
      · exact ih b

theorem skipAux_pos (bytes : List Nat) (hbytes : bytes ≠ []) :
    ∀ n, n ≤ bytes.length → ∀ b, 0 < skipAux bytes n b := by
  have hlen : 0 < bytes.length := List.length_pos.mpr hbytes
  intro n
  induction n with
  | zero => intro _ b; simpa [skipAux] using hlen
  | succ n ih =>
    intro hn b
    rw [congrFun (skipAux_succ bytes n) b]
    unfold skipStep
    split
    · exact ih (by omega) b
    · split
      · omega
      · exact ih (by omega) b

theorem skipAux_eq_of_max (bytes : List Nat) (b : Nat) :
    ∀ n, n ≤ bytes.length → ∀ p, p < n → p < bytes.length - 1 →
      bytes.getD p 0 = b →
      (∀ q, p < q → q < n → q < bytes.length - 1 → bytes.getD q 0 ≠ b) →
      skipAux bytes n b = bytes.length - 1 - p := by
  intro n
  induction n with
  | zero => intro _ p hp _ _ _; exact absurd hp (Nat.not_lt_zero p)
  | succ n ih =>
    intro hn p hp hpl hpb hmax
    rw [congrFun (skipAux_succ bytes n) b]
    unfold skipStep
    by_cases hlast : n = bytes.length - 1
    · rw [if_pos hlast]
      exact ih (by omega) p (by omega) hpl hpb
        (fun q h1 h2 h3 => hmax q h1 (by omega) h3)
    · rw [if_neg hlast]
      by_cases hpn : p = n
      · subst hpn
        rw [if_pos hpb.symm]
      · have hq : bytes.getD n 0 ≠ b := hmax n (by omega) (by omega) (by omega)
        rw [if_neg (fun hbn => hq hbn.symm)]
        exact ih (by omega) p (by omega) hpl hpb
          (fun q h1 h2 h3 => hmax q h1 (by omega) h3)

theorem skipAux_eq_default (bytes : List Nat) (b : Nat) :
    ∀ n, n ≤ bytes.length →
      (∀ p, p < n → p < bytes.length - 1 → bytes.getD p 0 ≠ b) →
      skipAux bytes n b = bytes.length := by
  intro n
  induction n with
  | zero => intro _ _; simp [skipAux]
  | succ n ih =>
    intro hn hall
    rw [congrFun (skipAux_succ bytes n) b]
    unfold skipStep
    by_cases hlast : n = bytes.length - 1
    · rw [if_pos hlast]
      exact ih (by omega) (fun p h1 h2 => hall p (by omega) h2)
    · rw [if_neg hlast]
      have hq : bytes.getD n 0 ≠ b := hall n (by omega) (by omega)
      rw [if_neg (fun hbn => hq hbn.symm)]
      exact ih (by omega) (fun p h1 h2 => hall p (by omega) h2)

theorem Needle.skip_pos (nd : Needle) (b : Nat) : 0 < nd.skip b :=
  skipAux_pos nd.bytes nd.nonempty nd.bytes.length le_rfl b

theorem Needle.skip_le (nd : Needle) (b : Nat) : nd.skip b ≤ nd.bytes.length :=
  skipAux_le nd.bytes nd.bytes.length b

/-- When byte `b` occurs at position `p` before the last index and at no
later position before the last index, the skip entry is the distance from
the last index. -/
theorem Needle.skip_eq_of_max (nd : Needle) (b p : Nat)
    (hp : p < nd.endIdx) (hpb : nd.bytes.getD p 0 = b)
    (hmax : ∀ q, p < q → q < nd.endIdx → nd.bytes.getD q 0 ≠ b) :
    nd.skip b = nd.endIdx - p := by
  have hlen := nd.length_pos
  have hend : nd.endIdx = nd.bytes.length - 1 := rfl
  unfold Needle.skip skipTable
  rw [skipAux_eq_of_max nd.bytes b nd.bytes.length le_rfl p (by omega)
    (by omega) hpb (fun q h1 _ h3 => hmax q h1 (by omega))]
  omega

/-- When byte `b` occurs at no position before the last index, the skip
entry keeps the default value, the pattern length. -/
theorem Needle.skip_eq_default (nd : Needle) (b : Nat)
    (hall : ∀ p, p < nd.endIdx → nd.bytes.getD p 0 ≠ b) :
    nd.skip b = nd.bytes.length := by
  have hlen := nd.length_pos
  have hend : nd.endIdx = nd.bytes.length - 1 := rfl
  unfold Needle.skip skipTable
  exact skipAux_eq_default nd.bytes b nd.bytes.length le_rfl
    (fun p _ h2 => hall p (by omega))

/-- The skip entry for a byte occurring at position `p` before the last
index is at most the distance from the last index to `p`. -/
theorem Needle.skip_le_of_occ (nd : Needle) {p b : Nat}
    (hp : p < nd.endIdx) (hpb : nd.bytes.getD p 0 = b) :
    nd.skip b ≤ nd.endIdx - p := by
  classical
  have hlen := nd.length_pos
  let P : Nat → Prop := fun q => q < nd.endIdx ∧ nd.bytes.getD q 0 = b
  have hPp : P p := ⟨hp, hpb⟩
  have hple : p ≤ nd.endIdx := le_of_lt hp
  have hPq : P (Nat.findGreatest P nd.endIdx) := Nat.findGreatest_spec hple hPp
  have hle : p ≤ Nat.findGreatest P nd.endIdx := Nat.le_findGreatest hple hPp
  have hmax : ∀ r, Nat.findGreatest P nd.endIdx < r → r < nd.endIdx →
      nd.bytes.getD r 0 ≠ b := by
    intro r h1 h2 hrb
    exact Nat.findGreatest_is_greatest h1 (le_of_lt h2) ⟨h2, hrb⟩
  rw [nd.skip_eq_of_max b (Nat.findGreatest P nd.endIdx) hPq.1 hPq.2 hmax]
  omega

/-- Backwards byte comparison shared by the full-match loop of `find` and
the partial-suffix loop of `findStream`: compare
`needle[nIdx], needle[nIdx-1], …` against `mem[cursor], mem[cursor-1], …`;
the comparison succeeds exactly when needle index `0` is reached without a
mismatch.  Stepping below memory index `0` fails, as the comparison with
`memory[-1] = undefined` does in the source. -/
def matchBackwards (needle mem : List Nat) : Nat → Nat → Bool
  | 0, cursor => needle[0]? == mem[cursor]?
  | _ + 1, 0 => false
  | nIdx + 1, cursor + 1 =>
    (needle[nIdx + 1]? == mem[cursor + 1]?) && matchBackwards needle mem nIdx cursor

theorem matchBackwards_iff (needle mem : List Nat) :
    ∀ nIdx cursor, nIdx < needle.length →
      (matchBackwards needle mem nIdx cursor = true ↔
        nIdx ≤ cursor ∧ ∀ k, k ≤ nIdx → needle[k]? = mem[cursor - nIdx + k]?) := by
  intro nIdx
  induction nIdx with
  | zero =>
    intro cursor _
    simp only [matchBackwards, beq_iff_eq]
    constructor
    · intro h0
      refine ⟨Nat.zero_le _, ?_⟩
      intro k hk
      have hk0 : k = 0 := Nat.le_zero.mp hk
      subst hk0
      simpa using h0
    · rintro ⟨-, h0⟩
      simpa using h0 0 le_rfl
  | succ n ih =>
    intro cursor h
    cases cursor with
    | zero =>
      constructor
      · intro hfalse
        simp [matchBackwards] at hfalse
      · rintro ⟨hc, -⟩
        omega
    | succ c =>
      simp only [matchBackwards, Bool.and_eq_true, beq_iff_eq]
      rw [ih c (by omega)]
      constructor
      · rintro ⟨heq, hc, hall⟩
        refine ⟨by omega, ?_⟩
        intro k hk
        rcases Nat.lt_or_ge k (n + 1) with hk' | hk'
        · have := hall k (by omega)
          rwa [show c + 1 - (n + 1) + k = c - n + k by omega]
        · have hk2 : k = n + 1 := le_antisymm hk hk'
          subst hk2
          rw [show c + 1 - (n + 1) + (n + 1) = c + 1 by omega]
          exact heq
      · rintro ⟨hc, hall⟩
        have hc' : n ≤ c := by omega
        refine ⟨?_, hc', ?_⟩
        · have := hall (n + 1) le_rfl
          rwa [show c + 1 - (n + 1) + (n + 1) = c + 1 by omega] at this
        · intro k hk
          have := hall k (by omega)
          rwa [show c + 1 - (n + 1) + k = c - n + k by omega] at this

/-- The pattern occurs in the haystack starting at position `s`, entirely
within the haystack. -/
def occursAt (pat hay : List Nat) (s : Nat) : Prop :=
  s + pat.length ≤ hay.length ∧ (hay.drop s).take pat.length = pat

instance (pat hay : List Nat) (s : Nat) : Decidable (occursAt pat hay s) := by
  unfold occursAt
  infer_instance

theorem occursAt_iff (pat hay : List Nat) (s : Nat) (hpat : pat ≠ []) :
    occursAt pat hay s ↔ ∀ k, k < pat.length → pat[k]? = hay[s + k]? := by
  constructor
  · rintro ⟨hlen, heq⟩ k hk
    have h1 : pat[k]? = ((hay.drop s).take pat.length)[k]? := by rw [heq]
    rw [h1, List.getElem?_take, if_pos hk, List.getElem?_drop]
  · intro h
    have hL : 0 < pat.length := List.length_pos.mpr hpat
    have hlast := h (pat.length - 1) (by omega)
    have hsome : (hay[s + (pat.length - 1)]?).isSome := by
      rw [← hlast, List.getElem?_eq_getElem (by omega : pat.length - 1 < pat.length)]
      rfl
    have hbound : s + (pat.length - 1) < hay.length := by
      by_contra hb
      rw [List.getElem?_eq_none (by omega)] at hsome
      simp at hsome
    refine ⟨by omega, ?_⟩
    apply List.ext_getElem?
    intro k
    by_cases hk : k < pat.length
    · rw [List.getElem?_take, if_pos hk, List.getElem?_drop, h k hk]
    · rw [List.getElem?_take, if_neg hk, List.getElem?_eq_none (by omega)]

theorem occursAt_append_iff (pat l t : List Nat) (s : Nat) (hpat : pat ≠ [])
    (hs : s + pat.length ≤ l.length) :
    occursAt pat (l ++ t) s ↔ occursAt pat l s := by
  rw [occursAt_iff pat (l ++ t) s hpat, occursAt_iff pat l s hpat]
  constructor
  · intro h k hk
    have := h k hk
    rwa [List.getElem?_append, if_pos (by omega)] at this
  · intro h k hk
    rw [List.getElem?_append, if_pos (by omega)]
    exact h k hk

theorem occursAt_append_of_left (pat l t : List Nat) (s : Nat) (hpat : pat ≠ [])
    (h : occursAt pat l s) : occursAt pat (l ++ t) s :=
  (occursAt_append_iff pat l t s hpat h.1).mpr h

theorem occursAt_drop_iff (pat l : List Nat) (k t : Nat) (hpat : pat ≠ []) :
    occursAt pat (l.drop k) t ↔ occursAt pat l (k + t) := by
  rw [occursAt_iff pat (l.drop k) t hpat, occursAt_iff pat l (k + t) hpat]
  constructor
  · intro h j hj
    have := h j hj
    rwa [List.getElem?_drop, show k + (t + j) = k + t + j by omega] at this
  · intro h j hj
    rw [List.getElem?_drop, show k + (t + j) = k + t + j by omega]
    exact h j hj

/-- Boyer-Moore-Horspool loop of `Multipart.#find`: the cursor `i` points at
the candidate position of the needle's last byte; compare backwards, and on
a full match return the match's start index, otherwise advance `i` by the
skip entry of the byte under the cursor.  The fuel bounds the number of
iterations; `mem.length + 1` is always sufficient because every skip entry
is positive. -/
def findLoop (nd : Needle) (mem : List Nat) : Nat → Nat → Option Nat
  | 0, _ => none
  | fuel + 1, i =>
    if i < mem.length then
      if matchBackwards nd.bytes mem nd.endIdx i then some (i - nd.endIdx)
      else findLoop nd mem fuel (i + nd.skip (mem.getD i 0))
    else none

/-- The skip rule never jumps past an occurrence whose last byte lies at or
beyond the cursor. -/
theorem skip_no_miss (nd : Needle) (mem : List Nat) (i t : Nat)
    (ht : occursAt nd.bytes mem t) (hit : i < t + nd.endIdx) :
    i + nd.skip (mem.getD i 0) ≤ t + nd.endIdx := by
  have hL : 0 < nd.bytes.length := nd.length_pos
  have hend : nd.endIdx = nd.bytes.length - 1 := rfl
  by_cases hd : nd.bytes.length ≤ t + nd.endIdx - i
  · have := nd.skip_le (mem.getD i 0)
    omega
  · have hti : t ≤ i := by omega
    have hkL : i - t < nd.endIdx := by omega
    have hocc := (occursAt_iff nd.bytes mem t nd.nonempty).mp ht (i - t) (by omega)
    have hib : i < mem.length := by
      have := ht.1
      omega
    have hbyte : nd.bytes.getD (i - t) 0 = mem.getD i 0 := by
      have hlt1 : i - t < nd.bytes.length := by omega
      rw [List.getElem?_eq_getElem hlt1] at hocc
      rw [show t + (i - t) = i by omega] at hocc
      rw [List.getElem?_eq_getElem hib] at hocc
      have h2 := Option.some.inj hocc
      rw [List.getD_eq_getElem nd.bytes 0 hlt1]
      rw [List.getD_eq_getElem mem 0 hib]
      exact h2
    have hskip := nd.skip_le_of_occ hkL hbyte
    omega

/-- Correctness of the BMH loop with sufficient fuel: it returns `none`
exactly when no occurrence has its last byte at or beyond the starting
cursor, and returns the position of the first such occurrence otherwise. -/
theorem findLoop_spec (nd : Needle) (mem : List Nat) :
    ∀ fuel i, mem.length ≤ fuel + i → nd.endIdx ≤ i →
      (findLoop nd mem fuel i = none →
        ∀ s, occursAt nd.bytes mem s → s + nd.endIdx < i) ∧
      (∀ s, findLoop nd mem fuel i = some s →
        occursAt nd.bytes mem s ∧ i ≤ s + nd.endIdx ∧
        ∀ t, occursAt nd.bytes mem t → i ≤ t + nd.endIdx → s ≤ t) := by
  have hL : 0 < nd.bytes.length := nd.length_pos
  have hend : nd.endIdx = nd.bytes.length - 1 := rfl
  intro fuel
  induction fuel with
  | zero =>
    intro i hfi _
    constructor
    · intro _ s hs
      have := hs.1
      omega
    · intro s hsome
      simp [findLoop] at hsome
  | succ fuel ih =>
    intro i hfi hei
    by_cases hib : i < mem.length
    · by_cases hm : matchBackwards nd.bytes mem nd.endIdx i = true
      · have heq : findLoop nd mem (fuel + 1) i = some (i - nd.endIdx) := by
          rw [findLoop, if_pos hib, if_pos hm]
        have hocc : occursAt nd.bytes mem (i - nd.endIdx) := by
          have h2 := (matchBackwards_iff nd.bytes mem nd.endIdx i nd.endIdx_lt).mp hm
          rw [occursAt_iff nd.bytes mem (i - nd.endIdx) nd.nonempty]
          intro k hk
          exact h2.2 k (by omega)
        constructor
        · intro hnone
          rw [heq] at hnone
          simp at hnone
        · intro s hsome
          rw [heq] at hsome
          have hs : s = i - nd.endIdx := (Option.some.inj hsome).symm
          subst hs
          exact ⟨hocc, by omega, fun t _ hti => by omega⟩
      · have heq : findLoop nd mem (fuel + 1) i
            = findLoop nd mem fuel (i + nd.skip (mem.getD i 0)) := by
          rw [findLoop, if_pos hib, if_neg hm]
        have hskip1 : 0 < nd.skip (mem.getD i 0) := nd.skip_pos _
        have ihh := ih (i + nd.skip (mem.getD i 0)) (by omega) (by omega)
        have hgap : ∀ t, occursAt nd.bytes mem t → i ≤ t + nd.endIdx →
            i + nd.skip (mem.getD i 0) ≤ t + nd.endIdx := by
          intro t ht hti
          rcases Nat.lt_or_ge i (t + nd.endIdx) with hlt | hge
          · exact skip_no_miss nd mem i t ht hlt
          · exfalso
            apply hm
            rw [matchBackwards_iff nd.bytes mem nd.endIdx i nd.endIdx_lt]
            refine ⟨hei, ?_⟩
            intro k hk
            have h3 := (occursAt_iff nd.bytes mem t nd.nonempty).mp ht k (by omega)
            rwa [show i - nd.endIdx + k = t + k by omega]
        rw [heq]
        constructor
        · intro hnone s hs
          by_contra hge
          have h2 := (ihh.1 hnone) s hs
          have h3 := hgap s hs (by omega)
          omega
        · intro s hsome
          obtain ⟨hocc, hge, hmin⟩ := ihh.2 s hsome
          refine ⟨hocc, by omega, ?_⟩
          intro t ht hti
          exact hmin t ht (hgap t ht hti)
    · have heq : findLoop nd mem (fuel + 1) i = none := by
        rw [findLoop, if_neg hib]
      constructor
      · intro _ s hs
        have := hs.1
        omega
      · intro s hsome
        rw [heq] at hsome
        simp at hsome

/-- Terminal parser errors (the RangeError values thrown by the source). -/
inductive PErr where
  | payloadTooLarge : PErr
  | memoryLimit : PErr
  | tooManyParts : PErr
deriving DecidableEq

/-- Parser options (type `Multipart.Options` with the defaults applied);
`parts = none` models the default `Infinity`. -/
structure MpOptions where
  memory : Nat
  payload : Nat
  parts : Option Nat
deriving DecidableEq

/-- Default options of the `Multipart` constructor. -/
def defaultOptions : MpOptions :=
  { memory := 4 * 1024 * 1024, payload := 16 * 1024 * 1024, parts := none }

/-- Parser state: `mem` is the live buffer region `memory[0 .. valid)` (so
`valid = mem.length`; the source never reads past `valid`), `cap` the
current `ArrayBuffer` capacity, `start` and `endIdx` the scanner fields
`start` and `end`, `payloadSize` the running total of bytes read, and
`source` the remaining chunks of the request body reader. -/
structure MState where
  mem : List Nat
  cap : Nat
  start : Nat
  endIdx : Nat
  payloadSize : Nat
  source : List (List Nat)
deriving DecidableEq

/-- All bytes that remain to be scanned: the buffered live region followed
by every unread source chunk in order. -/
def flatRest (st : MState) : List Nat := st.mem ++ st.source.flatten

/-- Operation `Multipart.#shift`: return a copy of the buffer below `start`
and compact the buffer by moving the bytes from `end` onwards to the front,
resetting `start` and `end` to `0`. -/
def mshift (st : MState) : List Nat × MState :=
  (st.mem.take st.start,
   { st with mem := st.mem.drop st.endIdx, start := 0, endIdx := 0 })

/-- Operation `Multipart.#find`: run the BMH loop with the cursor starting
at `start + needle.end`; on a match set `start` and `end` around the found
needle and shift, returning the prefix before the match; otherwise record
the safe position to resume the next search from. -/
def mfind (nd : Needle) (st : MState) : Option (List Nat) × MState :=
  match findLoop nd st.mem (st.mem.length + 1) (st.start + nd.endIdx) with
  | some cursor =>
    let shifted := mshift { st with start := cursor, endIdx := cursor + nd.bytes.length }
    (some shifted.1, shifted.2)
  | none =>
    let fallback := if nd.bytes.length < st.mem.length
      then st.mem.length - (nd.bytes.length - 1) else 0
    (none, { st with start := fallback, endIdx := fallback })

/-- Capacity after the resize check of `Multipart.#read`: when the space
required by the incoming chunk exceeds the current capacity, the buffer is
resized to the doubled size (or the required size if larger), capped at the
memory option. -/
def newCap (opts : MpOptions) (st : MState) (chunk : List Nat) : Nat :=
  if st.cap < st.mem.length + chunk.length
    then min opts.memory (max (st.mem.length + chunk.length) (2 * st.cap))
    else st.cap

/-- Operation `Multipart.#read`: read the next chunk from the source, count
it against the payload option, and append it to the buffer at the `valid`
cutoff (resizing first) unless `append` is false.  Writing a chunk that
does not fit even after the capped resize fails, as the out-of-bounds
`set` does in the source.  Returns `true` when the source is exhausted. -/
def mread (opts : MpOptions) (append : Bool) (st : MState) :
    Except PErr (Bool × MState) :=
  match st.source with
  | [] => .ok (true, st)
  | chunk :: rest =>
    if opts.payload < st.payloadSize + chunk.length then .error .payloadTooLarge
    else if append then
      if newCap opts st chunk < st.mem.length + chunk.length then
        .error .memoryLimit
      else .ok (false,
        { st with
            mem := st.mem ++ chunk
            cap := newCap opts st chunk
            payloadSize := st.payloadSize + chunk.length
            source := rest })
    else .ok (false,
      { st with
          payloadSize := st.payloadSize + chunk.length
          source := rest })

/-- Partial-suffix probe of `Multipart.#findStream`: after a failed full
search, look up the positions of the last buffered byte within the needle
and try them from the largest to the smallest; on the first backwards match
pin `start = end` to that candidate match's start.  An empty buffer skips
the probe, as `memory[-1] = undefined` indexes no `loc` entry. -/
def suffixProbe (nd : Needle) (st : MState) : MState :=
  if st.mem = [] then st
  else
    match ((nd.loc (st.mem.getD (st.mem.length - 1) 0)).reverse).find?
        (fun p => matchBackwards nd.bytes st.mem p (st.mem.length - 1)) with
    | some p =>
      { st with
          start := st.mem.length - 1 - p
          endIdx := st.mem.length - 1 - p }
    | none => st

/-- Loop of `Multipart.#findConcat`, fueled by the number of remaining
reads: find the needle, and while it is absent and the source is not
exhausted, read and append the next chunk. -/
def findConcatF (opts : MpOptions) (nd : Needle) :
    Nat → MState → Except PErr (Option (List Nat) × MState)
  | 0, st => .ok (none, st)
  | fuel + 1, st =>
    match mfind nd st with
    | (some before, st') => .ok (some before, st')
    | (none, st') =>
      match mread opts true st' with
      | .error e => .error e
      | .ok (true, st2) => .ok (none, st2)
      | .ok (false, st2) => findConcatF opts nd fuel st2

/-- Operation `Multipart.#findConcat` with provably sufficient fuel. -/
def findConcat (opts : MpOptions) (nd : Needle) (st : MState) :
    Except PErr (Option (List Nat) × MState) :=
  findConcatF opts nd (st.source.length + 1) st

/-- Result of one pull on a part-body stream: the chunks enqueued during
this pull, whether the stream closed, and the parser state afterwards. -/
structure PullResult where
  chunks : List (List Nat)
  closed : Bool
  state : MState
deriving DecidableEq

/-- One invocation of the `pull` callback of `Multipart.#findStream`,
fueled by the number of remaining reads: search for the needle; on success
enqueue the prefix before it (when non-empty) and close; after the source
reported done, close; otherwise probe for a partial suffix, shift, and
either enqueue the non-empty shifted prefix and leave the stream open, or
read the next chunk and search again. -/
def pullStepF (opts : MpOptions) (nd : Needle) :
    Nat → MState → Bool → Except PErr PullResult
  | 0, st, _ => .ok ⟨[], true, st⟩
  | fuel + 1, st, donePrev =>
    match mfind nd st with
    | (some found, st') =>
      .ok ⟨if found = [] then [] else [found], true, st'⟩
    | (none, st') =>
      if donePrev then .ok ⟨[], true, st'⟩
      else
        let shifted := mshift (suffixProbe nd st')
        if shifted.1 = [] then
          match mread opts true shifted.2 with
          | .error e => .error e
          | .ok (done, st3) => pullStepF opts nd fuel st3 done
        else .ok ⟨[shifted.1], false, shifted.2⟩

/-- One pull of the part-body stream with provably sufficient fuel. -/
def pullStep (opts : MpOptions) (nd : Needle) (st : MState) (donePrev : Bool) :
    Except PErr PullResult :=
  pullStepF opts nd (st.source.length + 2) st donePrev

/-- Weight of a state, used to bound loop iterations: buffered bytes plus
unread source bytes plus unread chunk count. -/
def weight (st : MState) : Nat :=
  st.mem.length + (st.source.map List.length).sum + st.source.length

/-- Reading a part's body stream to the end, as the iterator's auto-drain
(or an exhaustive consumer) does: pull until the stream closes, collecting
every enqueued chunk in order. -/
def drainBodyF (opts : MpOptions) (nd : Needle) :
    Nat → MState → Except PErr (List (List Nat) × MState)
  | 0, st => .ok ([], st)
  | fuel + 1, st =>
    match pullStep opts nd st false with
    | .error e => .error e
    | .ok r =>
      if r.closed then .ok (r.chunks, r.state)
      else
        match drainBodyF opts nd fuel r.state with
        | .error e => .error e
        | .ok (more, st') => .ok (r.chunks ++ more, st')

/-- Full body drain with provably sufficient fuel. -/
def drainBody (opts : MpOptions) (nd : Needle) (st : MState) :
    Except PErr (List (List Nat) × MState) :=
  drainBodyF opts nd (weight st + 1) st

/-- Epilogue drain of the async iterator: read and discard source chunks,
still counting them against the payload option, until exhaustion. -/
def drainEpilogueF (opts : MpOptions) : Nat → MState → Except PErr MState
  | 0, st => .ok st
  | fuel + 1, st =>
    match mread opts false st with
    | .error e => .error e
    | .ok (true, st') => .ok st'
    | .ok (false, st') => drainEpilogueF opts fuel st'

/-- Epilogue drain with provably sufficient fuel. -/
def drainEpilogue (opts : MpOptions) (st : MState) : Except PErr MState :=
  drainEpilogueF opts (st.source.length + 1) st

/-- Shared header-block terminator needle (static field `newLine`), the
bytes of the string containing CRLF twice. -/
def newLineNeedle : Needle := ⟨[13, 10, 13, 10], by decide⟩

/-- Opening boundary needle: the bytes of two dashes, the boundary token,
then CRLF. -/
def openingNeedle (boundary : List Nat) : Needle :=
  ⟨45 :: 45 :: (boundary ++ [13, 10]), by simp⟩

/-- Part boundary needle: the bytes of CRLF followed by two dashes and the
boundary token. -/
def boundaryNeedle (boundary : List Nat) : Needle :=
  ⟨13 :: 10 :: 45 :: 45 :: boundary, by simp⟩

/-- Observable data of a yielded `Part`: the raw header bytes handed to the
`Part` constructor and the chunks its body stream enqueues. -/
structure PartOut where
  rawHeaders : List Nat
  bodyChunks : List (List Nat)
deriving DecidableEq

/-- Main loop of the async iterator: find the next header-block terminator,
fail when the part count reaches the parts option, drain the part's body,
and then either continue with the next part or, when the two buffered bytes
after the boundary are both dashes, drain the epilogue and stop. -/
def iterLoopF (opts : MpOptions) (boundary : Needle) :
    Nat → MState → Nat → Except PErr (List PartOut × MState)
  | 0, st, _ => .ok ([], st)
  | fuel + 1, st, i =>
    match findConcat opts newLineNeedle st with
    | .error e => .error e
    | .ok (none, st') => .ok ([], st')
    | .ok (some headers, st') =>
      if opts.parts = some i then .error .tooManyParts
      else
        match drainBody opts boundary st' with
        | .error e => .error e
        | .ok (chunks, st2) =>
          if 1 < st2.mem.length ∧ st2.mem.getD 0 0 = 45 ∧ st2.mem.getD 1 0 = 45 then
            match drainEpilogue opts st2 with
            | .error e => .error e
            | .ok st3 => .ok ([⟨headers, chunks⟩], st3)
          else
            match iterLoopF opts boundary fuel st2 (i + 1) with
            | .error e => .error e
            | .ok (rest, st3) => .ok (⟨headers, chunks⟩ :: rest, st3)

/-- The async iterator: skip the preamble up to the opening boundary, then
yield parts until the terminal marker or the end of input. -/
def iterate (opts : MpOptions) (boundary : List Nat) (st : MState) :
    Except PErr (List PartOut × MState) :=
  match findConcat opts (openingNeedle boundary) st with
  | .error e => .error e
  | .ok (_, st') => iterLoopF opts (boundaryNeedle boundary) (weight st' + 1) st' 0

/-- Initial parser state over the given source chunks after a successful
constructor run. -/
def initState (source : List (List Nat)) : MState :=
  { mem := []
    cap := 65 * 1024
    start := 0
    endIdx := 0
    payloadSize := 0
    source := source }

/-- Constructor guard of the buffer allocation: allocating the 65 KiB
buffer with the memory option as maximum byte length throws when the
initial capacity already exceeds that maximum. -/
def mkMultipart (opts : MpOptions) (source : List (List Nat)) : Option MState :=
  if opts.memory < 65 * 1024 then none else some (initState source)

/-- Full parse of a multipart body with the given boundary token bytes. -/
def multipart (opts : MpOptions) (boundary : List Nat)
    (source : List (List Nat)) : Except PErr (List PartOut × MState) :=
  iterate opts boundary (initState source)

/-- Observable part count of a parse result. -/
def partsCount (r : Except PErr (List PartOut × MState)) : Option Nat :=
  match r with
  | .ok (ps, _) => some ps.length
  | .error _ => none

theorem newCap_ge (opts : MpOptions) (st : MState) (chunk : List Nat)
    (h : st.cap ≤ opts.memory) : st.cap ≤ newCap opts st chunk := by
  unfold newCap
  split <;> omega

theorem newCap_cases (opts : MpOptions) (st : MState) (chunk : List Nat) :
    newCap opts st chunk = st.cap ∨ newCap opts st chunk ≤ opts.memory := by
  unfold newCap
  split
  · right; omega
  · left; rfl

theorem newCap_lt_iff (opts : MpOptions) (st : MState) (chunk : List Nat) :
    newCap opts st chunk < st.mem.length + chunk.length ↔
      (st.cap < st.mem.length + chunk.length ∧
        opts.memory < st.mem.length + chunk.length) := by
  unfold newCap
  split <;> omega

theorem mread_nil (opts : MpOptions) (a : Bool) (st : MState)
    (h : st.source = []) : mread opts a st = .ok (true, st) := by
  unfold mread
  rw [h]

theorem mread_payload_error (opts : MpOptions) (a : Bool) (st : MState)
    (chunk : List Nat) (rest : List (List Nat)) (hs : st.source = chunk :: rest)
    (hp : opts.payload < st.payloadSize + chunk.length) :
    mread opts a st = .error .payloadTooLarge := by
  unfold mread
  rw [hs]
  simp only []
  rw [if_pos hp]

theorem mread_memory_error (opts : MpOptions) (st : MState)
    (chunk : List Nat) (rest : List (List Nat)) (hs : st.source = chunk :: rest)
    (hp : st.payloadSize + chunk.length ≤ opts.payload)
    (hm : opts.memory < st.mem.length + chunk.length)
    (hcap : st.cap ≤ opts.memory) :
    mread opts true st = .error .memoryLimit := by
  unfold mread
  rw [hs]
  simp only []
  rw [if_neg (by omega : ¬ opts.payload < st.payloadSize + chunk.length)]
  rw [if_pos trivial]
  rw [if_pos ((newCap_lt_iff opts st chunk).mpr ⟨by omega, hm⟩)]

theorem mread_ok_inv (opts : MpOptions) (a : Bool) (st : MState) (d : Bool)
    (st' : MState) (h : mread opts a st = .ok (d, st')) :
    (d = true ∧ st' = st ∧ st.source = []) ∨
    (d = false ∧ ∃ chunk rest, st.source = chunk :: rest ∧
      st'.payloadSize = st.payloadSize + chunk.length ∧
      st'.payloadSize ≤ opts.payload ∧
      st'.source = rest ∧ st'.start = st.start ∧ st'.endIdx = st.endIdx ∧
      ((a = true ∧ st'.mem = st.mem ++ chunk ∧ st'.mem.length ≤ st'.cap ∧
        (st'.cap = st.cap ∨ st'.cap ≤ opts.memory)) ∨
       (a = false ∧ st'.mem = st.mem ∧ st'.cap = st.cap))) := by
  unfold mread at h
  cases hs : st.source with
  | nil =>
    rw [hs] at h
    injection h with h1
    injection h1 with h2 h3
    exact .inl ⟨h2.symm, h3.symm, rfl⟩
  | cons chunk rest =>
    rw [hs] at h
    simp only [] at h
    by_cases hp : opts.payload < st.payloadSize + chunk.length
    · rw [if_pos hp] at h
      simp at h
    · rw [if_neg hp] at h
      cases a with
      | true =>
        rw [if_pos rfl] at h
        by_cases hsz : newCap opts st chunk < st.mem.length + chunk.length
        · rw [if_pos hsz] at h
          simp at h
        · rw [if_neg hsz] at h
          injection h with h1
          injection h1 with h2 h3
          refine .inr ⟨h2.symm, chunk, rest, rfl, ?_⟩
          subst h3
          refine ⟨rfl, show st.payloadSize + chunk.length ≤ opts.payload by omega,
            rfl, rfl, rfl, .inl ⟨rfl, rfl, ?_, ?_⟩⟩
          · show (st.mem ++ chunk).length ≤ newCap opts st chunk
            rw [List.length_append]
            omega
          · exact newCap_cases opts st chunk
      | false =>
        rw [if_neg (by simp)] at h
        injection h with h1
        injection h1 with h2 h3
        refine .inr ⟨h2.symm, chunk, rest, rfl, ?_⟩
        subst h3
        exact ⟨rfl, show st.payloadSize + chunk.length ≤ opts.payload by omega,
          rfl, rfl, rfl, .inr ⟨rfl, rfl, rfl⟩⟩

theorem mread_error_inv (opts : MpOptions) (a : Bool) (st : MState) (e : PErr)
    (h : mread opts a st = .error e) :
    ∃ chunk rest, st.source = chunk :: rest ∧
      ((e = .payloadTooLarge ∧ opts.payload < st.payloadSize + chunk.length) ∨
       (e = .memoryLimit ∧ a = true ∧
         st.payloadSize + chunk.length ≤ opts.payload ∧
         newCap opts st chunk < st.mem.length + chunk.length)) := by
  unfold mread at h
  cases hs : st.source with
  | nil => rw [hs] at h; simp at h
  | cons chunk rest =>
    rw [hs] at h
    simp only [] at h
    by_cases hp : opts.payload < st.payloadSize + chunk.length
    · rw [if_pos hp] at h
      injection h with h1
      exact ⟨chunk, rest, rfl, .inl ⟨h1.symm, hp⟩⟩
    · rw [if_neg hp] at h
      cases a with
      | true =>
        rw [if_pos rfl] at h
        by_cases hsz : newCap opts st chunk < st.mem.length + chunk.length
        · rw [if_pos hsz] at h
          injection h with h1
          exact ⟨chunk, rest, rfl, .inr ⟨h1.symm, rfl, by omega, hsz⟩⟩
        · rw [if_neg hsz] at h
          simp at h
      | false =>
        rw [if_neg (by simp)] at h
        simp at h

theorem mfind_some_inv (nd : Needle) (st : MState) (before : List Nat)
    (st' : MState) (h : mfind nd st = (some before, st')) :
    ∃ cursor,
      findLoop nd st.mem (st.mem.length + 1) (st.start + nd.endIdx) = some cursor ∧
      before = st.mem.take cursor ∧
      st'.mem = st.mem.drop (cursor + nd.bytes.length) ∧
      st'.start = 0 ∧ st'.endIdx = 0 ∧ st'.cap = st.cap ∧
      st'.payloadSize = st.payloadSize ∧ st'.source = st.source := by
  unfold mfind at h
  cases hf : findLoop nd st.mem (st.mem.length + 1) (st.start + nd.endIdx) with
  | none => rw [hf] at h; simp at h
  | some cursor =>
    rw [hf] at h
    injection h with h1 h2
    injection h1 with h1
    subst h2
    exact ⟨cursor, rfl, h1.symm, rfl, rfl, rfl, rfl, rfl, rfl⟩

theorem mfind_none_inv (nd : Needle) (st : MState) (st' : MState)
    (h : mfind nd st = (none, st')) :
    findLoop nd st.mem (st.mem.length + 1) (st.start + nd.endIdx) = none ∧
    st'.mem = st.mem ∧ st'.cap = st.cap ∧
    st'.payloadSize = st.payloadSize ∧ st'.source = st.source ∧
    st'.start = st'.endIdx ∧
    st'.start = (if nd.bytes.length < st.mem.length
      then st.mem.length - (nd.bytes.length - 1) else 0) := by
  unfold mfind at h
  cases hf : findLoop nd st.mem (st.mem.length + 1) (st.start + nd.endIdx) with
  | some cursor => rw [hf] at h; simp at h
  | none =>
    rw [hf] at h
    injection h with h1 h2
    subst h2
    exact ⟨rfl, rfl, rfl, rfl, rfl, rfl, rfl⟩

theorem suffixProbe_fields (nd : Needle) (st : MState) :
    (suffixProbe nd st).mem = st.mem ∧ (suffixProbe nd st).cap = st.cap ∧
    (suffixProbe nd st).payloadSize = st.payloadSize ∧
    (suffixProbe nd st).source = st.source := by
  unfold suffixProbe
  split
  · exact ⟨rfl, rfl, rfl, rfl⟩
  · split
    · exact ⟨rfl, rfl, rfl, rfl⟩
    · exact ⟨rfl, rfl, rfl, rfl⟩

theorem suffixProbe_start_eq_endIdx (nd : Needle) (st : MState)
    (h : st.start = st.endIdx) :
    (suffixProbe nd st).start = (suffixProbe nd st).endIdx := by
  unfold suffixProbe
  split
  · exact h
  · split
    · rfl
    · exact h

theorem mshift_weight (st : MState) :
    weight (mshift st).2 + min st.endIdx st.mem.length = weight st := by
  unfold weight mshift
  simp only [List.length_drop]
  omega

theorem mfind_some_weight_lt (nd : Needle) (st : MState) (before : List Nat)
    (st' : MState) (h : mfind nd st = (some before, st')) :
    weight st' < weight st := by
  obtain ⟨cursor, hf, -, hmem, -, -, -, -, hsrc⟩ := mfind_some_inv nd st before st' h
  have hspec := (findLoop_spec nd st.mem (st.mem.length + 1)
    (st.start + nd.endIdx) (by omega) (Nat.le_add_left _ _)).2 cursor hf
  have hocc := hspec.1.1
  have hL := nd.length_pos
  unfold weight
  rw [hmem, hsrc, List.length_drop]
  omega

theorem mfind_none_weight (nd : Needle) (st : MState) (st' : MState)
    (h : mfind nd st = (none, st')) : weight st' = weight st := by
  obtain ⟨-, hmem, -, -, hsrc, -, -⟩ := mfind_none_inv nd st st' h
  unfold weight
  rw [hmem, hsrc]

theorem weight_suffixProbe (nd : Needle) (st : MState) :
    weight (suffixProbe nd st) = weight st := by
  obtain ⟨h1, -, -, h4⟩ := suffixProbe_fields nd st
  unfold weight
  rw [h1, h4]

theorem mread_ok_weight (opts : MpOptions) (a : Bool) (st : MState) (d : Bool)
    (st' : MState) (h : mread opts a st = .ok (d, st')) :
    (d = true → st' = st) ∧ (d = false → weight st' < weight st) := by
  rcases mread_ok_inv opts a st d st' h with ⟨hd, he, -⟩ | ⟨hd, chunk, rest, hs, -, -, hsrc, -, -, hm⟩
  · subst hd
    exact ⟨fun _ => he, fun hc => by simp at hc⟩
  · subst hd
    refine ⟨fun hc => by simp at hc, fun _ => ?_⟩
    unfold weight
    rw [hsrc, hs, List.map_cons, List.sum_cons]
    rcases hm with ⟨-, hmem, -, -⟩ | ⟨-, hmem, -⟩
    · rw [hmem, List.length_append]
      simp only [List.length_cons]
      omega
    · rw [hmem]
      simp only [List.length_cons]
      omega

theorem pullStepF_weight (opts : MpOptions) (nd : Needle) :
    ∀ fuel st d r, pullStepF opts nd fuel st d = .ok r →
      weight r.state ≤ weight st ∧
      (r.closed = false → weight r.state < weight st) := by
  intro fuel
  induction fuel with
  | zero =>
    intro st d r h
    unfold pullStepF at h
    injection h with h1
    subst h1
    exact ⟨le_rfl, fun hc => by simp at hc⟩
  | succ fuel ih =>
    intro st d r h
    unfold pullStepF at h
    rcases hf : mfind nd st with ⟨o, st'⟩
    rw [hf] at h
    cases o with
    | some found =>
      simp only [] at h
      injection h with h1
      subst h1
      have hw := mfind_some_weight_lt nd st found st' hf
      exact ⟨le_of_lt hw, fun _ => hw⟩
    | none =>
      simp only [] at h
      have hw' : weight st' = weight st := mfind_none_weight nd st st' hf
      cases d with
      | true =>
        rw [if_pos rfl] at h
        injection h with h1
        subst h1
        exact ⟨le_of_eq hw', fun hc => by simp at hc⟩
      | false =>
        rw [if_neg Bool.false_ne_true] at h
        have hws : weight (mshift (suffixProbe nd st')).2 +
            min (suffixProbe nd st').endIdx (suffixProbe nd st').mem.length
            = weight st := by
          rw [mshift_weight (suffixProbe nd st'), weight_suffixProbe, hw']
        by_cases hb : (mshift (suffixProbe nd st')).1 = []
        · rw [if_pos hb] at h
          cases hr : mread opts true (mshift (suffixProbe nd st')).2 with
          | error e =>
            rw [hr] at h
            simp at h
          | ok pair =>
            rw [hr] at h
            simp only [] at h
            obtain ⟨done, st3⟩ := pair
            have hread := mread_ok_weight opts true (mshift (suffixProbe nd st')).2
              done st3 hr
            have hrec := ih st3 done r h
            have hst3 : weight st3 ≤ weight (mshift (suffixProbe nd st')).2 := by
              cases done with
              | true => rw [hread.1 rfl]
              | false => exact le_of_lt (hread.2 rfl)
            constructor
            · calc weight r.state ≤ weight st3 := hrec.1
                _ ≤ weight (mshift (suffixProbe nd st')).2 := hst3
                _ ≤ weight st := by omega
            · intro hc
              calc weight r.state < weight st3 := hrec.2 hc
                _ ≤ weight (mshift (suffixProbe nd st')).2 := hst3
                _ ≤ weight st := by omega
        · rw [if_neg hb] at h
          injection h with h1
          subst h1
          have hone : (suffixProbe nd st').start ≠ 0 ∧ (suffixProbe nd st').mem ≠ [] := by
            constructor
            · intro h0
              apply hb
              show (suffixProbe nd st').mem.take (suffixProbe nd st').start = []
              rw [h0]
              simp
            · intro h0
              apply hb
              show (suffixProbe nd st').mem.take (suffixProbe nd st').start = []
              rw [h0]
              simp
          have heq : (suffixProbe nd st').start = (suffixProbe nd st').endIdx := by
            apply suffixProbe_start_eq_endIdx
            exact (mfind_none_inv nd st st' hf).2.2.2.2.2.1
          have hmlen : 0 < (suffixProbe nd st').mem.length :=
            List.length_pos.mpr hone.2
          constructor
          · show weight (mshift (suffixProbe nd st')).2 ≤ weight st
            omega
          · intro _
            show weight (mshift (suffixProbe nd st')).2 < weight st
            have : 0 < min (suffixProbe nd st').endIdx (suffixProbe nd st').mem.length := by
              rw [← heq]
              omega
            omega

theorem pullStep_weight (opts : MpOptions) (nd : Needle) (st : MState) (d : Bool)
    (r : PullResult) (h : pullStep opts nd st d = .ok r) :
    weight r.state ≤ weight st ∧ (r.closed = false → weight r.state < weight st) := by
  unfold pullStep at h
  exact pullStepF_weight opts nd (st.source.length + 2) st d r h

theorem take_append_left (l1 l2 : List Nat) (n : Nat) (h : n ≤ l1.length) :
    (l1 ++ l2).take n = l1.take n := by
  rw [List.take_append_eq_append_take]
  simp [Nat.sub_eq_zero_of_le h]

theorem drop_append_left (l1 l2 : List Nat) (n : Nat) (h : n ≤ l1.length) :
    (l1 ++ l2).drop n = l1.drop n ++ l2 := by
  rw [List.drop_append_eq_append_drop]
  simp [Nat.sub_eq_zero_of_le h]

/-- The pattern occurs first at position `s`: it occurs there and at no
earlier position. -/
def firstOccAt (pat hay : List Nat) (s : Nat) : Prop :=
  occursAt pat hay s ∧ ∀ t, occursAt pat hay t → s ≤ t

theorem firstOccAt_drop (pat l : List Nat) (k s : Nat) (hpat : pat ≠ [])
    (hk : k ≤ s) (h : firstOccAt pat l s) : firstOccAt pat (l.drop k) (s - k) := by
  constructor
  · rw [occursAt_drop_iff pat l k (s - k) hpat, show k + (s - k) = s by omega]
    exact h.1
  · intro t ht
    rw [occursAt_drop_iff pat l k t hpat] at ht
    have := h.2 (k + t) ht
    omega

theorem exists_firstOccAt (pat hay : List Nat) (t : Nat)
    (ht : occursAt pat hay t) : ∃ s, firstOccAt pat hay s := by
  classical
  have hex : ∃ s, occursAt pat hay s := ⟨t, ht⟩
  exact ⟨Nat.find hex, Nat.find_spec hex, fun u hu => Nat.find_min' hex hu⟩

/-- A read with append keeps the flat remainder: the consumed chunk moves
from the source to the buffer. -/
theorem mread_true_flat (opts : MpOptions) (st : MState) (d : Bool)
    (st' : MState) (h : mread opts true st = .ok (d, st')) :
    flatRest st' = flatRest st ∧ st'.start = st.start ∧ st'.endIdx = st.endIdx ∧
    (d = true → st'.source = [] ∧ st'.mem = st.mem ∧ st' = st) := by
  rcases mread_ok_inv opts true st d st' h with ⟨hd, he, hsrc⟩ |
    ⟨hd, chunk, rest, hs, -, -, hsrc, hst, hend, hm⟩
  · subst he
    exact ⟨rfl, rfl, rfl, fun _ => ⟨hsrc, rfl, rfl⟩⟩
  · subst hd
    rcases hm with ⟨-, hmem, -, -⟩ | ⟨hfalse, -, -⟩
    · refine ⟨?_, hst, hend, fun hc => by simp at hc⟩
      unfold flatRest
      rw [hmem, hsrc, hs, List.flatten_cons, List.append_assoc]
    · simp at hfalse

/-- When the search succeeds and the first occurrence in the flat remainder
is known, the match is exactly that occurrence and the returned prefix and
compacted state are determined by the flat remainder. -/
theorem mfind_found_canon (nd : Needle) (st : MState) (before : List Nat)
    (st' : MState) (s : Nat)
    (hs : firstOccAt nd.bytes (flatRest st) s) (hstart : st.start ≤ s)
    (h : mfind nd st = (some before, st')) :
    before = (flatRest st).take s ∧
    flatRest st' = (flatRest st).drop (s + nd.bytes.length) ∧
    st'.start = 0 ∧ st'.endIdx = 0 ∧
    st'.source = st.source ∧ st'.payloadSize = st.payloadSize ∧
    s + nd.bytes.length ≤ st.mem.length := by
  obtain ⟨cursor, hf, hb, hmem, h0, h0', hcap, hpay, hsrc⟩ :=
    mfind_some_inv nd st before st' h
  have hspec := (findLoop_spec nd st.mem (st.mem.length + 1)
    (st.start + nd.endIdx) (by omega) (Nat.le_add_left _ _)).2 cursor hf
  have hflat : occursAt nd.bytes (flatRest st) cursor :=
    occursAt_append_of_left nd.bytes st.mem st.source.flatten cursor
      nd.nonempty hspec.1
  have h1 : s ≤ cursor := hs.2 cursor hflat
  have hsm : s + nd.bytes.length ≤ st.mem.length := by
    have := hspec.1.1
    omega
  have hsmem : occursAt nd.bytes st.mem s :=
    (occursAt_append_iff nd.bytes st.mem st.source.flatten s nd.nonempty hsm).mp hs.1
  have h2 : cursor ≤ s := by
    have hEnd := nd.endIdx_lt
    exact hspec.2.2 s hsmem (by omega)
  have hcs : cursor = s := le_antisymm h2 h1
  subst hcs
  refine ⟨?_, ?_, h0, h0', hsrc, hpay, hsm⟩
  · rw [hb]
    unfold flatRest
    rw [take_append_left st.mem st.source.flatten cursor (by omega)]
  · unfold flatRest
    rw [hmem, hsrc, drop_append_left st.mem st.source.flatten
      (cursor + nd.bytes.length) (by omega)]

/-- When the search fails and the first occurrence in the flat remainder is
known, that occurrence straddles the end of the buffer and the recorded
resume position stays at or before it. -/
theorem mfind_none_canon (nd : Needle) (st : MState) (st' : MState) (s : Nat)
    (hs : firstOccAt nd.bytes (flatRest st) s) (hstart : st.start ≤ s)
    (h : mfind nd st = (none, st')) :
    st'.start ≤ s ∧ st.mem.length < s + nd.bytes.length ∧
    st'.start = st'.endIdx ∧ st'.mem = st.mem ∧ st'.source = st.source ∧
    st'.payloadSize = st.payloadSize ∧ st'.start ≤ st.mem.length := by
  obtain ⟨hf, hmem, hcap, hpay, hsrc, heq, hval⟩ := mfind_none_inv nd st st' h
  have hnone := (findLoop_spec nd st.mem (st.mem.length + 1)
    (st.start + nd.endIdx) (by omega) (Nat.le_add_left _ _)).1 hf
  have hL := nd.length_pos
  have hEnd : nd.endIdx = nd.bytes.length - 1 := rfl
  have hbig : st.mem.length < s + nd.bytes.length := by
    by_contra hc
    have hsmem : occursAt nd.bytes st.mem s :=
      (occursAt_append_iff nd.bytes st.mem st.source.flatten s
        nd.nonempty (by omega)).mp hs.1
    have := hnone s hsmem
    omega
  refine ⟨?_, hbig, heq, hmem, hsrc, hpay, ?_⟩
  · rw [hval]
    split <;> omega
  · rw [hval]
    split <;> omega

/-- In a strictly descending list, the first element satisfying the
predicate dominates every satisfying element. -/
theorem find?_pairwise_gt (p : Nat → Bool) :
    ∀ l : List Nat, List.Pairwise (fun a b => a > b) l →
      ∀ q, l.find? p = some q → ∀ x ∈ l, q < x → p x = false := by
  intro l
  induction l with
  | nil => intro _ q h; simp at h
  | cons a rest ih =>
    intro hl q h x hx hqx
    rw [List.find?_cons] at h
    have hpw := List.pairwise_cons.mp hl
    cases hpa : p a with
    | true =>
      rw [hpa] at h
      injection h with h1
      subst h1
      rcases List.mem_cons.mp hx with hxa | hxr
      · omega
      · have := hpw.1 x hxr
        omega
    | false =>
      rw [hpa] at h
      rcases List.mem_cons.mp hx with hxa | hxr
      · subst hxa
        exact hpa
      · exact ih hpw.2 q h x hxr hqx

theorem loc_pairwise (nd : Needle) (b : Nat) :
    List.Pairwise (fun a c => a < c) (nd.loc b) :=
  List.Pairwise.filter _ (List.pairwise_lt_range nd.bytes.length)

theorem loc_mem (nd : Needle) (b p : Nat) (hp : p < nd.bytes.length)
    (hb : nd.bytes.getD p 0 = b) : p ∈ nd.loc b := by
  unfold Needle.loc
  rw [List.mem_filter]
  exact ⟨List.mem_range.mpr hp, decide_eq_true hb⟩

/-- The probe never pins the start past the first occurrence of the needle
in the flat remainder. -/
theorem suffixProbe_start_le (nd : Needle) (st : MState) (s : Nat)
    (hs : firstOccAt nd.bytes (flatRest st) s) (hstart : st.start ≤ s)
    (hbig : st.mem.length < s + nd.bytes.length) :
    (suffixProbe nd st).start ≤ s := by
  unfold suffixProbe
  split
  · exact hstart
  · rename_i hne
    cases hfind : ((nd.loc (st.mem.getD (st.mem.length - 1) 0)).reverse).find?
        (fun p => matchBackwards nd.bytes st.mem p (st.mem.length - 1)) with
    | none => exact hstart
    | some q =>
      simp only []
      have hmlen : 0 < st.mem.length := List.length_pos.mpr hne
      by_cases hcase : st.mem.length ≤ s
      · -- any pin is below the end of the buffer
        have hq := List.find?_some hfind
        have hqc := (matchBackwards_iff nd.bytes st.mem q (st.mem.length - 1)
          (by
            have hmem := List.mem_of_find?_eq_some hfind
            rw [List.mem_reverse] at hmem
            unfold Needle.loc at hmem
            rw [List.mem_filter, List.mem_range] at hmem
            exact hmem.1)).mp hq
        omega
      · -- the occurrence starts inside the buffer and straddles its end
        push_neg at hcase
        have hL := nd.length_pos
        -- the candidate position of the straddling occurrence
        have hpstar : st.mem.length - 1 - s < nd.bytes.length := by omega
        have hmatch : matchBackwards nd.bytes st.mem (st.mem.length - 1 - s)
            (st.mem.length - 1) = true := by
          rw [matchBackwards_iff nd.bytes st.mem _ _ hpstar]
          refine ⟨by omega, ?_⟩
          intro k hk
          have hocc := (occursAt_iff nd.bytes (flatRest st) s nd.nonempty).mp hs.1
            k (by omega)
          rw [hocc]
          unfold flatRest
          rw [List.getElem?_append, if_pos (by omega),
            show st.mem.length - 1 - (st.mem.length - 1 - s) + k = s + k by omega]
        have hloc : st.mem.length - 1 - s ∈ nd.loc (st.mem.getD (st.mem.length - 1) 0) := by
          apply loc_mem nd _ _ hpstar
          have h2 := (matchBackwards_iff nd.bytes st.mem _ _ hpstar).mp hmatch
          have h3 := h2.2 (st.mem.length - 1 - s) le_rfl
          rw [show st.mem.length - 1 - (st.mem.length - 1 - s) +
            (st.mem.length - 1 - s) = st.mem.length - 1 by omega] at h3
          rw [List.getElem?_eq_getElem (by omega : st.mem.length - 1 - s < nd.bytes.length)] at h3
          rw [List.getElem?_eq_getElem (by omega : st.mem.length - 1 < st.mem.length)] at h3
          have h4 := Option.some.inj h3
          rw [List.getD_eq_getElem nd.bytes 0 (by omega),
            List.getD_eq_getElem st.mem 0 (by omega)]
          exact h4
        -- the found index is at least the straddling candidate
        have hmax := find?_pairwise_gt _ ((nd.loc (st.mem.getD (st.mem.length - 1) 0)).reverse)
          (by
            rw [List.pairwise_reverse]
            exact loc_pairwise nd _)
          q hfind (st.mem.length - 1 - s) (List.mem_reverse.mpr hloc)
        by_contra hlt
        push_neg at hlt
        -- pin = len - 1 - q > s means q < len - 1 - s
        have : q < st.mem.length - 1 - s := by
          have hq := List.find?_some hfind
          have hqmem := List.mem_of_find?_eq_some hfind
          rw [List.mem_reverse] at hqmem
          unfold Needle.loc at hqmem
          rw [List.mem_filter, List.mem_range] at hqmem
          have hqc := (matchBackwards_iff nd.bytes st.mem q (st.mem.length - 1)
            hqmem.1).mp hq
          omega
        have := hmax this
        rw [hmatch] at this
        simp at this

theorem suffixProbe_start_le_len (nd : Needle) (st : MState)
    (h : st.start ≤ st.mem.length) :
    (suffixProbe nd st).start ≤ (suffixProbe nd st).mem.length := by
  unfold suffixProbe
  split
  · exact h
  · split
    · show st.mem.length - 1 - _ ≤ st.mem.length
      omega
    · exact h

theorem mread_ok_sourceLen (opts : MpOptions) (a : Bool) (st : MState)
    (d : Bool) (st' : MState) (h : mread opts a st = .ok (d, st')) :
    (d = true → st'.source = st.source) ∧
    (d = false → st'.source.length + 1 = st.source.length) := by
  rcases mread_ok_inv opts a st d st' h with ⟨hd, he, -⟩ |
    ⟨hd, chunk, rest, hs, -, -, hsrc, -, -, -⟩
  · subst he
    subst hd
    exact ⟨fun _ => rfl, fun hc => by simp at hc⟩
  · subst hd
    refine ⟨fun hc => by simp at hc, fun _ => ?_⟩
    rw [hsrc, hs]
    rfl

/-- Canonicity of `findConcat`: when the needle's first occurrence in the
flat remainder is at `s` and the current resume position does not exceed
it, a successful run returns exactly the flat bytes before the occurrence
and leaves exactly the flat bytes after it. -/
theorem findConcatF_canon (opts : MpOptions) (nd : Needle) :
    ∀ fuel st s res, st.source.length < fuel →
      firstOccAt nd.bytes (flatRest st) s → st.start ≤ s →
      findConcatF opts nd fuel st = .ok res →
      res.1 = some ((flatRest st).take s) ∧
      flatRest res.2 = (flatRest st).drop (s + nd.bytes.length) ∧
      res.2.start = 0 ∧ res.2.endIdx = 0 := by
  intro fuel
  induction fuel with
  | zero => intro st s res hfuel _ _ _; omega
  | succ fuel ih =>
    intro st s res hfuel hfo hstart h
    unfold findConcatF at h
    rcases hf : mfind nd st with ⟨o, st'⟩
    rw [hf] at h
    cases o with
    | some before =>
      simp only [] at h
      injection h with h1
      subst h1
      obtain ⟨hbef, hflat', h0, h0', -, -, -⟩ :=
        mfind_found_canon nd st before st' s hfo hstart hf
      exact ⟨by rw [hbef], hflat', h0, h0'⟩
    | none =>
      simp only [] at h
      obtain ⟨hst'le, hbig, heq', hmem', hsrc', hpay', hstlen⟩ :=
        mfind_none_canon nd st st' s hfo hstart hf
      have hflatEq : flatRest st' = flatRest st := by
        unfold flatRest
        rw [hmem', hsrc']
      cases hr : mread opts true st' with
      | error e =>
        rw [hr] at h
        simp at h
      | ok pair =>
        rw [hr] at h
        obtain ⟨done, st2⟩ := pair
        obtain ⟨h2flat, h2st, h2end, h2done⟩ := mread_true_flat opts st' done st2 hr
        cases done with
        | true =>
          simp only [] at h
          injection h with h1
          subst h1
          exfalso
          have hnil := (h2done rfl).1
          have hmm := (h2done rfl).2.1
          have h5 : (flatRest st).length = st.mem.length := by
            have h6 : flatRest st2 = st.mem := by
              unfold flatRest
              rw [hnil, hmm, hmem']
              simp
            rw [← hflatEq, ← h2flat, h6]
          exact absurd hfo.1.1 (by omega)
        | false =>
          simp only [] at h
          have hfl : flatRest st2 = flatRest st := by rw [h2flat, hflatEq]
          have hlen := (mread_ok_sourceLen opts true st' false st2 hr).2 rfl
          have hrec := ih st2 s res
            (by rw [hsrc'] at hlen; omega)
            (by rw [hfl]; exact hfo)
            (by rw [h2st]; omega)
            h
          rw [hfl] at hrec
          exact hrec

/-- A successful search that reports a found prefix witnesses an occurrence
of the needle in the flat remainder. -/
theorem findConcatF_some_occ (opts : MpOptions) (nd : Needle) :
    ∀ fuel st b st', findConcatF opts nd fuel st = .ok (some b, st') →
      ∃ t, occursAt nd.bytes (flatRest st) t := by
  intro fuel
  induction fuel with
  | zero =>
    intro st b st' h
    unfold findConcatF at h
    simp at h
  | succ fuel ih =>
    intro st b st' h
    unfold findConcatF at h
    rcases hf : mfind nd st with ⟨o, st1⟩
    rw [hf] at h
    cases o with
    | some before =>
      obtain ⟨cursor, hfl, -, -, -, -, -, -, -⟩ := mfind_some_inv nd st before st1 hf
      have hspec := (findLoop_spec nd st.mem (st.mem.length + 1)
        (st.start + nd.endIdx) (by omega) (Nat.le_add_left _ _)).2 cursor hfl
      exact ⟨cursor, occursAt_append_of_left nd.bytes st.mem st.source.flatten
        cursor nd.nonempty hspec.1⟩
    | none =>
      simp only [] at h
      obtain ⟨-, hmem', -, -, hsrc', -, -⟩ := mfind_none_inv nd st st1 hf
      cases hr : mread opts true st1 with
      | error e =>
        rw [hr] at h
        simp at h
      | ok pair =>
        rw [hr] at h
        obtain ⟨done, st2⟩ := pair
        cases done with
        | true =>
          simp only [] at h
          injection h with h1
          simp at h1
        | false =>
          simp only [] at h
          obtain ⟨h2flat, -, -, -⟩ := mread_true_flat opts st1 false st2 hr
          obtain ⟨t, ht⟩ := ih st2 b st' h
          rw [h2flat] at ht
          refine ⟨t, ?_⟩
          have : flatRest st1 = flatRest st := by
            unfold flatRest
            rw [hmem', hsrc']
          rwa [this] at ht

theorem findConcat_canon (opts : MpOptions) (nd : Needle) (st : MState)
    (s : Nat) (res : Option (List Nat) × MState)
    (hfo : firstOccAt nd.bytes (flatRest st) s) (hstart : st.start ≤ s)
    (h : findConcat opts nd st = .ok res) :
    res.1 = some ((flatRest st).take s) ∧
    flatRest res.2 = (flatRest st).drop (s + nd.bytes.length) ∧
    res.2.start = 0 ∧ res.2.endIdx = 0 := by
  unfold findConcat at h
  exact findConcatF_canon opts nd (st.source.length + 1) st s res (by omega)
    hfo hstart h

theorem findConcat_some_occ (opts : MpOptions) (nd : Needle) (st : MState)
    (b : List Nat) (st' : MState) (h : findConcat opts nd st = .ok (some b, st')) :
    ∃ s, firstOccAt nd.bytes (flatRest st) s := by
  unfold findConcat at h
  obtain ⟨t, ht⟩ := findConcatF_some_occ opts nd (st.source.length + 1) st b st' h
  exact exists_firstOccAt nd.bytes (flatRest st) t ht

/-- Canonicity of one pull of the part-body stream: with the needle's first
occurrence in the flat remainder at `s` and the resume position at most `s`,
a successful pull either closes the stream having emitted exactly the flat
bytes before the occurrence (with the remainder positioned after the
needle), or stays open having emitted a non-empty prefix of those bytes. -/
theorem pullStepF_canon (opts : MpOptions) (nd : Needle) :
    ∀ fuel st d s r,
      (if d = true then 1 else st.source.length + 2) ≤ fuel →
      firstOccAt nd.bytes (flatRest st) s → st.start ≤ s →
      (d = true → st.source = []) →
      pullStepF opts nd fuel st d = .ok r →
      (r.closed = true →
        r.chunks.flatten = (flatRest st).take s ∧
        flatRest r.state = (flatRest st).drop (s + nd.bytes.length) ∧
        r.state.start = 0 ∧ r.state.endIdx = 0) ∧
      (r.closed = false →
        ∃ k, 0 < k ∧ k ≤ s ∧ r.chunks.flatten = (flatRest st).take k ∧
          flatRest r.state = (flatRest st).drop k ∧
          r.state.start = 0 ∧ r.state.endIdx = 0) := by
  intro fuel
  induction fuel with
  | zero =>
    intro st d s r hfuel _ _ _ _
    split at hfuel <;> omega
  | succ fuel ih =>
    intro st d s r hfuel hfo hstart hd h
    unfold pullStepF at h
    rcases hf : mfind nd st with ⟨o, st'⟩
    rw [hf] at h
    cases o with
    | some found =>
      simp only [] at h
      injection h with h1
      subst h1
      obtain ⟨hbef, hflat', h0, h0', hsrc', hpay', hsm⟩ :=
        mfind_found_canon nd st found st' s hfo hstart hf
      refine ⟨fun _ => ⟨?_, hflat', h0, h0'⟩, fun hc => by simp at hc⟩
      show (if found = [] then ([] : List (List Nat)) else [found]).flatten = _
      by_cases hfnil : found = []
      · rw [if_pos hfnil, List.flatten_nil, ← hbef, hfnil]
      · rw [if_neg hfnil, show ([found] : List (List Nat)).flatten = found from by simp,
          hbef]
    | none =>
      obtain ⟨hst'le, hbig, heq', hmem', hsrc', hpay', hstlen⟩ :=
        mfind_none_canon nd st st' s hfo hstart hf
      have hflatEq : flatRest st' = flatRest st := by
        unfold flatRest
        rw [hmem', hsrc']
      cases d with
      | true =>
        simp only [] at h
        injection h with h1
        subst h1
        exfalso
        have hnil := hd rfl
        have h5 : (flatRest st).length = st.mem.length := by
          unfold flatRest
          rw [hnil]
          simp
        exact absurd hfo.1.1 (by omega)
      | false =>
        simp only [] at h
        rw [if_neg Bool.false_ne_true] at h
        obtain ⟨h2mem, h2cap, h2pay, h2src⟩ := suffixProbe_fields nd st'
        have h2eq : (suffixProbe nd st').start = (suffixProbe nd st').endIdx :=
          suffixProbe_start_eq_endIdx nd st' heq'
        have h2le_s : (suffixProbe nd st').start ≤ s := by
          apply suffixProbe_start_le nd st' s ?_ hst'le ?_
          · rw [hflatEq]
            exact hfo
          · rw [hmem']
            exact hbig
        have h2len : (suffixProbe nd st').start ≤ (suffixProbe nd st').mem.length := by
          apply suffixProbe_start_le_len
          rw [hmem']
          exact hstlen
        by_cases hb : (mshift (suffixProbe nd st')).1 = []
        · rw [if_pos hb] at h
          have hb' : (suffixProbe nd st').mem.take (suffixProbe nd st').start = [] := hb
          have h2zero : (suffixProbe nd st').start = 0 := by
            rcases List.take_eq_nil_iff.mp hb' with h0 | hmem0
            · exact h0
            · have : (suffixProbe nd st').mem.length = 0 := by rw [hmem0]; rfl
              omega
          have h3mem : (mshift (suffixProbe nd st')).2.mem = st.mem := by
            show (suffixProbe nd st').mem.drop (suffixProbe nd st').endIdx = st.mem
            rw [← h2eq, h2zero, List.drop_zero, h2mem, hmem']
          have h3flat : flatRest (mshift (suffixProbe nd st')).2 = flatRest st := by
            unfold flatRest
            rw [h3mem]
            show st.mem ++ ((suffixProbe nd st').source).flatten = _
            rw [h2src, hsrc']
          cases hr : mread opts true (mshift (suffixProbe nd st')).2 with
          | error e =>
            rw [hr] at h
            simp at h
          | ok pair =>
            rw [hr] at h
            obtain ⟨done, st4⟩ := pair
            simp only [] at h
            obtain ⟨h4flat, h4st, h4end, h4done⟩ :=
              mread_true_flat opts (mshift (suffixProbe nd st')).2 done st4 hr
            have h4flat' : flatRest st4 = flatRest st := by rw [h4flat, h3flat]
            have h4start : st4.start = 0 := by
              rw [h4st]
              rfl
            have hsrcLen := mread_ok_sourceLen opts true
              (mshift (suffixProbe nd st')).2 done st4 hr
            have hshiftSrc : (mshift (suffixProbe nd st')).2.source = st.source := by
              show (suffixProbe nd st').source = st.source
              rw [h2src, hsrc']
            have hful2 : st.source.length + 2 ≤ fuel + 1 := hfuel
            have hfuel4 : (if done = true then 1 else st4.source.length + 2) ≤ fuel := by
              cases done with
              | true =>
                show 1 ≤ fuel
                omega
              | false =>
                show st4.source.length + 2 ≤ fuel
                have := hsrcLen.2 rfl
                rw [hshiftSrc] at this
                omega
            have hd4 : done = true → st4.source = [] := fun hdt => (h4done hdt).1
            have hrec := ih st4 done s r hfuel4
              (by rw [h4flat']; exact hfo)
              (by rw [h4start]; exact Nat.zero_le s)
              hd4 h
            constructor
            · intro hc
              have hr1 := hrec.1 hc
              rw [h4flat'] at hr1
              exact hr1
            · intro hc
              obtain ⟨k, hk⟩ := hrec.2 hc
              rw [h4flat'] at hk
              exact ⟨k, hk⟩
        · rw [if_neg hb] at h
          injection h with h1
          subst h1
          refine ⟨fun hc => by simp at hc, fun _ => ?_⟩
          have hb' : (suffixProbe nd st').mem.take (suffixProbe nd st').start ≠ [] := hb
          have hpos : 0 < (suffixProbe nd st').start := by
            rcases Nat.eq_zero_or_pos (suffixProbe nd st').start with h0 | h0
            · exfalso
              apply hb'
              rw [h0]
              exact List.take_zero _
            · exact h0
          have hmlen : (suffixProbe nd st').mem = st.mem := by rw [h2mem, hmem']
          have hlen2 : (suffixProbe nd st').start ≤ st.mem.length := by
            rw [← hmlen]
            exact h2len
          refine ⟨(suffixProbe nd st').start, hpos, h2le_s, ?_, ?_, rfl, rfl⟩
          · show ([(mshift (suffixProbe nd st')).1] : List (List Nat)).flatten = _
            rw [show ([(mshift (suffixProbe nd st')).1] : List (List Nat)).flatten
              = (mshift (suffixProbe nd st')).1 from by simp]
            show (suffixProbe nd st').mem.take (suffixProbe nd st').start = _
            rw [hmlen]
            unfold flatRest
            rw [take_append_left st.mem st.source.flatten _ hlen2]
          · show flatRest (mshift (suffixProbe nd st')).2 = _
            unfold flatRest
            show (suffixProbe nd st').mem.drop (suffixProbe nd st').endIdx ++
              ((suffixProbe nd st').source).flatten = _
            rw [← h2eq, hmlen, h2src, hsrc',
              drop_append_left st.mem st.source.flatten _ hlen2]

theorem pullStep_canon (opts : MpOptions) (nd : Needle) (st : MState) (s : Nat)
    (r : PullResult) (hfo : firstOccAt nd.bytes (flatRest st) s)
    (hstart : st.start ≤ s) (h : pullStep opts nd st false = .ok r) :
    (r.closed = true →
      r.chunks.flatten = (flatRest st).take s ∧
      flatRest r.state = (flatRest st).drop (s + nd.bytes.length) ∧
      r.state.start = 0 ∧ r.state.endIdx = 0) ∧
    (r.closed = false →
      ∃ k, 0 < k ∧ k ≤ s ∧ r.chunks.flatten = (flatRest st).take k ∧
        flatRest r.state = (flatRest st).drop k ∧
        r.state.start = 0 ∧ r.state.endIdx = 0) := by
  unfold pullStep at h
  exact pullStepF_canon opts nd (st.source.length + 2) st false s r
    (by simp) hfo hstart (fun hc => by simp at hc) h

/-- Canonicity of the full body drain: with the needle's first occurrence in
the flat remainder at `s` and the resume position at most `s`, a successful
drain collects chunks whose concatenation is exactly the flat bytes before
the occurrence, and leaves exactly the flat bytes after the needle. -/
theorem drainBodyF_canon (opts : MpOptions) (nd : Needle) :
    ∀ fuel st s chunks st', weight st < fuel →
      firstOccAt nd.bytes (flatRest st) s → st.start ≤ s →
      drainBodyF opts nd fuel st = .ok (chunks, st') →
      chunks.flatten = (flatRest st).take s ∧
      flatRest st' = (flatRest st).drop (s + nd.bytes.length) ∧
      st'.start = 0 ∧ st'.endIdx = 0 := by
  intro fuel
  induction fuel with
  | zero => intro st s chunks st' hfuel _ _ _; omega
  | succ fuel ih =>
    intro st s chunks st' hfuel hfo hstart h
    unfold drainBodyF at h
    cases hp : pullStep opts nd st false with
    | error e =>
      rw [hp] at h
      simp at h
    | ok r =>
      rw [hp] at h
      simp only [] at h
      have hcanon := pullStep_canon opts nd st s r hfo hstart hp
      have hw := pullStep_weight opts nd st false r hp
      cases hcl : r.closed with
      | true =>
        rw [hcl] at h
        rw [if_pos rfl] at h
        injection h with h1
        injection h1 with ha hb
        subst ha
        subst hb
        exact hcanon.1 hcl
      | false =>
        rw [hcl] at h
        rw [if_neg Bool.false_ne_true] at h
        cases hrec : drainBodyF opts nd fuel r.state with
        | error e =>
          rw [hrec] at h
          simp at h
        | ok pair =>
          rw [hrec] at h
          obtain ⟨more, st2⟩ := pair
          simp only [] at h
          injection h with h1
          injection h1 with ha hb
          subst ha
          subst hb
          obtain ⟨k, hk0, hks, hkfl, hkdrop, hkst, hkend⟩ := hcanon.2 hcl
          have hfo2 : firstOccAt nd.bytes (flatRest r.state) (s - k) := by
            rw [hkdrop]
            exact firstOccAt_drop nd.bytes (flatRest st) k s nd.nonempty hks hfo
          have hrec2 := ih r.state (s - k) more st2
            (by have := hw.2 hcl; omega) hfo2
            (by rw [hkst]; exact Nat.zero_le _) hrec
          refine ⟨?_, ?_, hrec2.2.2.1, hrec2.2.2.2⟩
          · rw [List.flatten_append, hkfl, hrec2.1, hkdrop, ← List.take_add,
              show k + (s - k) = s by omega]
          · rw [hrec2.2.1, hkdrop, List.drop_drop,
              show k + (s - k + nd.bytes.length) = s + nd.bytes.length by omega]

theorem drainBody_canon (opts : MpOptions) (nd : Needle) (st : MState)
    (s : Nat) (chunks : List (List Nat)) (st' : MState)
    (hfo : firstOccAt nd.bytes (flatRest st) s) (hstart : st.start ≤ s)
    (h : drainBody opts nd st = .ok (chunks, st')) :
    chunks.flatten = (flatRest st).take s ∧
    flatRest st' = (flatRest st).drop (s + nd.bytes.length) ∧
    st'.start = 0 ∧ st'.endIdx = 0 := by
  unfold drainBody at h
  exact drainBodyF_canon opts nd (weight st + 1) st s chunks st' (by omega)
    hfo hstart h

/-- Buffer well-formedness: the scanner indices and the live byte count are
nested, and the capacity never exceeds the memory option (the maximum byte
length of the buffer).  All quantities are naturals, so the lower bound
zero of the source invariant holds by type. -/
def BufWF (opts : MpOptions) (st : MState) : Prop :=
  st.start ≤ st.endIdx ∧ st.endIdx ≤ st.mem.length ∧
  st.mem.length ≤ st.cap ∧ st.cap ≤ opts.memory

/-- Combined state invariant: the buffer is well formed and the cumulative
payload has never exceeded the payload option. -/
def StInv (opts : MpOptions) (st : MState) : Prop :=
  BufWF opts st ∧ st.payloadSize ≤ opts.payload

theorem bufWF_init (opts : MpOptions) (source : List (List Nat)) (st : MState)
    (h : mkMultipart opts source = some st) : BufWF opts st := by
  unfold mkMultipart at h
  split at h
  · simp at h
  · injection h with h1
    subst h1
    refine ⟨le_rfl, Nat.zero_le _, Nat.zero_le _, ?_⟩
    show (65 * 1024 : Nat) ≤ opts.memory
    omega

theorem bufWF_mread (opts : MpOptions) (a : Bool) (st : MState) (d : Bool)
    (st' : MState) (h : mread opts a st = .ok (d, st'))
    (hwf : BufWF opts st) : BufWF opts st' := by
  obtain ⟨h1, h2, h3, h4⟩ := hwf
  rcases mread_ok_inv opts a st d st' h with ⟨-, he, -⟩ |
    ⟨-, chunk, rest, -, -, -, -, hst, hend, hm⟩
  · subst he
    exact ⟨h1, h2, h3, h4⟩
  · rcases hm with ⟨-, hmem, hlen, hcap⟩ | ⟨-, hmem, hcap⟩
    · refine ⟨by omega, ?_, hlen, ?_⟩
      · rw [hend, hmem, List.length_append]
        omega
      · rcases hcap with hc | hc
        · rw [hc]; exact h4
        · exact hc
    · unfold BufWF
      rw [hst, hend, hmem, hcap]
      exact ⟨h1, h2, h3, h4⟩

theorem bufWF_mfind (opts : MpOptions) (nd : Needle) (st : MState)
    (o : Option (List Nat)) (st' : MState) (h : mfind nd st = (o, st'))
    (hwf : BufWF opts st) : BufWF opts st' := by
  obtain ⟨h1, h2, h3, h4⟩ := hwf
  cases o with
  | some before =>
    obtain ⟨cursor, -, -, hmem, h0, h0', hcap, -, -⟩ :=
      mfind_some_inv nd st before st' h
    refine ⟨by rw [h0, h0'], by rw [h0']; exact Nat.zero_le _, ?_, by rw [hcap]; exact h4⟩
    rw [hmem, hcap, List.length_drop]
    omega
  | none =>
    obtain ⟨-, hmem, hcap, -, -, heq, hval⟩ := mfind_none_inv nd st st' h
    refine ⟨le_of_eq heq, ?_, by rw [hmem, hcap]; exact h3, by rw [hcap]; exact h4⟩
    rw [← heq, hmem, hval]
    split <;> omega

theorem bufWF_suffixProbe (opts : MpOptions) (nd : Needle) (st : MState)
    (hwf : BufWF opts st) : BufWF opts (suffixProbe nd st) := by
  obtain ⟨h1, h2, h3, h4⟩ := hwf
  unfold suffixProbe
  split
  · exact ⟨h1, h2, h3, h4⟩
  · split
    · refine ⟨le_rfl, ?_, h3, h4⟩
      show st.mem.length - 1 - _ ≤ st.mem.length
      omega
    · exact ⟨h1, h2, h3, h4⟩

theorem bufWF_mshift (opts : MpOptions) (st : MState) (hwf : BufWF opts st) :
    BufWF opts (mshift st).2 := by
  obtain ⟨h1, h2, h3, h4⟩ := hwf
  refine ⟨le_rfl, Nat.zero_le _, ?_, h4⟩
  show (st.mem.drop st.endIdx).length ≤ st.cap
  rw [List.length_drop]
  omega

theorem payload_mread (opts : MpOptions) (a : Bool) (st : MState) (d : Bool)
    (st' : MState) (h : mread opts a st = .ok (d, st'))
    (hp : st.payloadSize ≤ opts.payload) : st'.payloadSize ≤ opts.payload := by
  rcases mread_ok_inv opts a st d st' h with ⟨-, he, -⟩ |
    ⟨-, chunk, rest, -, -, hple, -, -, -, -⟩
  · subst he
    exact hp
  · exact hple

theorem stInv_mread (opts : MpOptions) (a : Bool) (st : MState) (d : Bool)
    (st' : MState) (h : mread opts a st = .ok (d, st'))
    (hi : StInv opts st) : StInv opts st' :=
  ⟨bufWF_mread opts a st d st' h hi.1, payload_mread opts a st d st' h hi.2⟩

theorem stInv_mfind (opts : MpOptions) (nd : Needle) (st : MState)
    (o : Option (List Nat)) (st' : MState) (h : mfind nd st = (o, st'))
    (hi : StInv opts st) : StInv opts st' := by
  refine ⟨bufWF_mfind opts nd st o st' h hi.1, ?_⟩
  cases o with
  | some before =>
    obtain ⟨-, -, -, -, -, -, -, hpay, -⟩ := mfind_some_inv nd st before st' h
    rw [hpay]
    exact hi.2
  | none =>
    obtain ⟨-, -, -, hpay, -, -, -⟩ := mfind_none_inv nd st st' h
    rw [hpay]
    exact hi.2

theorem stInv_suffixProbe (opts : MpOptions) (nd : Needle) (st : MState)
    (hi : StInv opts st) : StInv opts (suffixProbe nd st) := by
  refine ⟨bufWF_suffixProbe opts nd st hi.1, ?_⟩
  rw [(suffixProbe_fields nd st).2.2.1]
  exact hi.2

theorem stInv_mshift (opts : MpOptions) (st : MState) (hi : StInv opts st) :
    StInv opts (mshift st).2 :=
  ⟨bufWF_mshift opts st hi.1, hi.2⟩

theorem stInv_pullStepF (opts : MpOptions) (nd : Needle) :
    ∀ fuel st d r, pullStepF opts nd fuel st d = .ok r →
      StInv opts st → StInv opts r.state := by
  intro fuel
  induction fuel with
  | zero =>
    intro st d r h hi
    unfold pullStepF at h
    injection h with h1
    subst h1
    exact hi
  | succ fuel ih =>
    intro st d r h hi
    unfold pullStepF at h
    rcases hf : mfind nd st with ⟨o, st'⟩
    rw [hf] at h
    cases o with
    | some found =>
      simp only [] at h
      injection h with h1
      subst h1
      exact stInv_mfind opts nd st (some found) st' hf hi
    | none =>
      have hi' : StInv opts st' := stInv_mfind opts nd st none st' hf hi
      cases d with
      | true =>
        simp only [] at h
        injection h with h1
        subst h1
        exact hi'
      | false =>
        simp only [] at h
        rw [if_neg Bool.false_ne_true] at h
        have hi2 : StInv opts (mshift (suffixProbe nd st')).2 :=
          stInv_mshift opts _ (stInv_suffixProbe opts nd st' hi')
        by_cases hb : (mshift (suffixProbe nd st')).1 = []
        · rw [if_pos hb] at h
          cases hr : mread opts true (mshift (suffixProbe nd st')).2 with
          | error e =>
            rw [hr] at h
            simp at h
          | ok pair =>
            rw [hr] at h
            obtain ⟨done, st4⟩ := pair
            simp only [] at h
            exact ih st4 done r h (stInv_mread opts true _ done st4 hr hi2)
        · rw [if_neg hb] at h
          injection h with h1
          subst h1
          exact hi2

theorem stInv_findConcatF (opts : MpOptions) (nd : Needle) :
    ∀ fuel st res, findConcatF opts nd fuel st = .ok res →
      StInv opts st → StInv opts res.2 := by
  intro fuel
  induction fuel with
  | zero =>
    intro st res h hi
    unfold findConcatF at h
    injection h with h1
    subst h1
    exact hi
  | succ fuel ih =>
    intro st res h hi
    unfold findConcatF at h
    rcases hf : mfind nd st with ⟨o, st'⟩
    rw [hf] at h
    cases o with
    | some before =>
      simp only [] at h
      injection h with h1
      subst h1
      exact stInv_mfind opts nd st (some before) st' hf hi
    | none =>
      simp only [] at h
      have hi' : StInv opts st' := stInv_mfind opts nd st none st' hf hi
      cases hr : mread opts true st' with
      | error e =>
        rw [hr] at h
        simp at h
      | ok pair =>
        rw [hr] at h
        obtain ⟨done, st2⟩ := pair
        have hi2 : StInv opts st2 := stInv_mread opts true st' done st2 hr hi'
        cases done with
        | true =>
          simp only [] at h
          injection h with h1
          subst h1
          exact hi2
        | false =>
          simp only [] at h
          exact ih st2 res h hi2

theorem stInv_drainBodyF (opts : MpOptions) (nd : Needle) :
    ∀ fuel st res, drainBodyF opts nd fuel st = .ok res →
      StInv opts st → StInv opts res.2 := by
  intro fuel
  induction fuel with
  | zero =>
    intro st res h hi
    unfold drainBodyF at h
    injection h with h1
    subst h1
    exact hi
  | succ fuel ih =>
    intro st res h hi
    unfold drainBodyF at h
    cases hp : pullStep opts nd st false with
    | error e =>
      rw [hp] at h
      simp at h
    | ok r =>
      rw [hp] at h
      simp only [] at h
      have hir : StInv opts r.state := by
        unfold pullStep at hp
        exact stInv_pullStepF opts nd (st.source.length + 2) st false r hp hi
      cases hcl : r.closed with
      | true =>
        rw [hcl, if_pos rfl] at h
        injection h with h1
        subst h1
        exact hir
      | false =>
        rw [hcl, if_neg Bool.false_ne_true] at h
        cases hrec : drainBodyF opts nd fuel r.state with
        | error e =>
          rw [hrec] at h
          simp at h
        | ok pair =>
          rw [hrec] at h
          obtain ⟨more, st2⟩ := pair
          simp only [] at h
          injection h with h1
          subst h1
          exact ih r.state (more, st2) hrec hir

theorem stInv_drainEpilogueF (opts : MpOptions) :
    ∀ fuel st st', drainEpilogueF opts fuel st = .ok st' →
      StInv opts st → StInv opts st' := by
  intro fuel
  induction fuel with
  | zero =>
    intro st st' h hi
    unfold drainEpilogueF at h
    injection h with h1
    subst h1
    exact hi
  | succ fuel ih =>
    intro st st' h hi
    unfold drainEpilogueF at h
    cases hr : mread opts false st with
    | error e =>
      rw [hr] at h
      simp at h
    | ok pair =>
      rw [hr] at h
      obtain ⟨done, st2⟩ := pair
      have hi2 : StInv opts st2 := stInv_mread opts false st done st2 hr hi
      cases done with
      | true =>
        simp only [] at h
        injection h with h1
        subst h1
        exact hi2
      | false =>
        simp only [] at h
        exact ih st2 st' h hi2

theorem stInv_iterLoopF (opts : MpOptions) (boundary : Needle) :
    ∀ fuel st i res, iterLoopF opts boundary fuel st i = .ok res →
      StInv opts st → StInv opts res.2 := by
  intro fuel
  induction fuel with
  | zero =>
    intro st i res h hi
    unfold iterLoopF at h
    injection h with h1
    subst h1
    exact hi
  | succ fuel ih =>
    intro st i res h hi
    unfold iterLoopF at h
    cases hh : findConcat opts newLineNeedle st with
    | error e =>
      rw [hh] at h
      simp at h
    | ok pair =>
      rw [hh] at h
      obtain ⟨o, st'⟩ := pair
      have hi' : StInv opts st' := by
        unfold findConcat at hh
        exact stInv_findConcatF opts newLineNeedle (st.source.length + 1) st
          (o, st') hh hi
      cases o with
      | none =>
        simp only [] at h
        injection h with h1
        subst h1
        exact hi'
      | some headers =>
        simp only [] at h
        by_cases hparts : opts.parts = some i
        · rw [if_pos hparts] at h
          simp at h
        · rw [if_neg hparts] at h
          cases hb : drainBody opts boundary st' with
          | error e =>
            rw [hb] at h
            simp at h
          | ok pair2 =>
            rw [hb] at h
            obtain ⟨chunks, st2⟩ := pair2
            simp only [] at h
            have hi2 : StInv opts st2 := by
              unfold drainBody at hb
              exact stInv_drainBodyF opts boundary (weight st' + 1) st'
                (chunks, st2) hb hi'
            by_cases hterm : 1 < st2.mem.length ∧ st2.mem.getD 0 0 = 45 ∧
                st2.mem.getD 1 0 = 45
            · rw [if_pos hterm] at h
              cases he : drainEpilogue opts st2 with
              | error e =>
                rw [he] at h
                simp at h
              | ok st3 =>
                rw [he] at h
                simp only [] at h
                injection h with h1
                subst h1
                unfold drainEpilogue at he
                exact stInv_drainEpilogueF opts (st2.source.length + 1) st2 st3
                  he hi2
            · rw [if_neg hterm] at h
              cases hrec : iterLoopF opts boundary fuel st2 (i + 1) with
              | error e =>
                rw [hrec] at h
                simp at h
              | ok pair3 =>
                rw [hrec] at h
                obtain ⟨rest, st3⟩ := pair3
                simp only [] at h
                injection h with h1
                subst h1
                exact ih st2 (i + 1) (rest, st3) hrec hi2

/-- Invariant preservation over the whole parse: when the constructor's
buffer allocation succeeds (the memory option is at least the initial 65
KiB capacity), every successful parse ends in a state whose buffer is well
formed and whose cumulative payload never exceeded the payload option. -/
theorem stInv_multipart (opts : MpOptions) (boundary : List Nat)
    (source : List (List Nat)) (parts : List PartOut) (stF : MState)
    (h65 : 65 * 1024 ≤ opts.memory)
    (h : multipart opts boundary source = .ok (parts, stF)) :
    StInv opts stF := by
  have hinit : StInv opts (initState source) :=
    ⟨⟨le_rfl, Nat.zero_le _, Nat.zero_le _, h65⟩, Nat.zero_le _⟩
  unfold multipart iterate at h
  cases hh : findConcat opts (openingNeedle boundary) (initState source) with
  | error e =>
    rw [hh] at h
    simp at h
  | ok pair =>
    rw [hh] at h
    obtain ⟨o, st'⟩ := pair
    simp only [] at h
    have hi' : StInv opts st' := by
      unfold findConcat at hh
      exact stInv_findConcatF opts (openingNeedle boundary) _ _ (o, st') hh hinit
    exact stInv_iterLoopF opts (boundaryNeedle boundary) (weight st' + 1) st' 0
      (parts, stF) h hi'

/-- With an exhausted source, a pull can never fail: reads report done
without touching the state, and the loop closes the stream normally. -/
theorem pullStepF_nil_ok (opts : MpOptions) (nd : Needle) :
    ∀ fuel st d, st.source = [] →
      ∃ r, pullStepF opts nd fuel st d = .ok r ∧ r.state.source = [] := by
  intro fuel
  induction fuel with
  | zero =>
    intro st d hnil
    exact ⟨⟨[], true, st⟩, rfl, hnil⟩
  | succ fuel ih =>
    intro st d hnil
    unfold pullStepF
    rcases hf : mfind nd st with ⟨o, st'⟩
    cases o with
    | some found =>
      refine ⟨⟨if found = [] then [] else [found], true, st'⟩, rfl, ?_⟩
      obtain ⟨-, -, -, -, -, -, -, -, hsrc⟩ := mfind_some_inv nd st found st' hf
      rw [hsrc]
      exact hnil
    | none =>
      obtain ⟨-, -, -, -, hsrc, -, -⟩ := mfind_none_inv nd st st' hf
      have hsrc' : st'.source = [] := by rw [hsrc]; exact hnil
      cases d with
      | true => exact ⟨⟨[], true, st'⟩, rfl, hsrc'⟩
      | false =>
        simp only []
        rw [if_neg Bool.false_ne_true]
        have hsrcShift : (mshift (suffixProbe nd st')).2.source = [] := by
          show (suffixProbe nd st').source = []
          rw [(suffixProbe_fields nd st').2.2.2]
          exact hsrc'
        by_cases hb : (mshift (suffixProbe nd st')).1 = []
        · rw [if_pos hb]
          rw [mread_nil opts true (mshift (suffixProbe nd st')).2 hsrcShift]
          simp only []
          exact ih (mshift (suffixProbe nd st')).2 true hsrcShift
        · rw [if_neg hb]
          exact ⟨⟨[(mshift (suffixProbe nd st')).1], false,
            (mshift (suffixProbe nd st')).2⟩, rfl, hsrcShift⟩

theorem drainBodyF_nil_ok (opts : MpOptions) (nd : Needle) :
    ∀ fuel st, st.source = [] →
      ∃ res, drainBodyF opts nd fuel st = .ok res ∧ res.2.source = [] := by
  intro fuel
  induction fuel with
  | zero =>
    intro st hnil
    exact ⟨([], st), rfl, hnil⟩
  | succ fuel ih =>
    intro st hnil
    unfold drainBodyF
    obtain ⟨r, hr, hrsrc⟩ := pullStepF_nil_ok opts nd (st.source.length + 2) st
      false hnil
    rw [show pullStep opts nd st false = .ok r from hr]
    simp only []
    cases hcl : r.closed with
    | true =>
      rw [if_pos rfl]
      exact ⟨(r.chunks, r.state), rfl, hrsrc⟩
    | false =>
      rw [if_neg Bool.false_ne_true]
      obtain ⟨res, hres, hressrc⟩ := ih r.state hrsrc
      rw [hres]
      exact ⟨(r.chunks ++ res.1, res.2), by rw [show res = (res.1, res.2) from rfl], hressrc⟩

/-- A body drain on an exhausted source always succeeds: the stream closes
normally instead of raising an end-of-file error. -/
theorem drainBody_nil_ok (opts : MpOptions) (nd : Needle) (st : MState)
    (hnil : st.source = []) : ∃ res, drainBody opts nd st = .ok res := by
  obtain ⟨res, hres, -⟩ := drainBodyF_nil_ok opts nd (weight st + 1) st hnil
  exact ⟨res, hres⟩

/-- Every chunk a pull enqueues is non-empty: both enqueue sites in the pull
callback are guarded by a length check. -/
theorem pullStepF_chunks_ne_nil (opts : MpOptions) (nd : Needle) :
    ∀ fuel st d r, pullStepF opts nd fuel st d = .ok r →
      ∀ c ∈ r.chunks, c ≠ [] := by
  intro fuel
  induction fuel with
  | zero =>
    intro st d r h
    unfold pullStepF at h
    injection h with h1
    subst h1
    intro c hc
    simp at hc
  | succ fuel ih =>
    intro st d r h
    unfold pullStepF at h
    rcases hf : mfind nd st with ⟨o, st'⟩
    rw [hf] at h
    cases o with
    | some found =>
      simp only [] at h
      injection h with h1
      subst h1
      intro c hc
      by_cases hfnil : found = []
      · rw [show PullResult.chunks ⟨if found = [] then [] else [found], true, st'⟩
          = if found = [] then [] else [found] from rfl, if_pos hfnil] at hc
        simp at hc
      · rw [show PullResult.chunks ⟨if found = [] then [] else [found], true, st'⟩
          = if found = [] then [] else [found] from rfl, if_neg hfnil] at hc
        rw [List.mem_singleton] at hc
        rw [hc]
        exact hfnil
    | none =>
      cases d with
      | true =>
        simp only [] at h
        injection h with h1
        subst h1
        intro c hc
        simp at hc
      | false =>
        simp only [] at h
        rw [if_neg Bool.false_ne_true] at h
        by_cases hb : (mshift (suffixProbe nd st')).1 = []
        · rw [if_pos hb] at h
          cases hr : mread opts true (mshift (suffixProbe nd st')).2 with
          | error e =>
            rw [hr] at h
            simp at h
          | ok pair =>
            rw [hr] at h
            obtain ⟨done, st4⟩ := pair
            simp only [] at h
            exact ih st4 done r h
        · rw [if_neg hb] at h
          injection h with h1
          subst h1
          intro c hc
          rw [List.mem_singleton] at hc
          rw [hc]
          exact hb

theorem pullStep_chunks_ne_nil (opts : MpOptions) (nd : Needle) (st : MState)
    (d : Bool) (r : PullResult) (h : pullStep opts nd st d = .ok r) :
    ∀ c ∈ r.chunks, c ≠ [] := by
  unfold pullStep at h
  exact pullStepF_chunks_ne_nil opts nd (st.source.length + 2) st d r h

/-- Prepend a byte to the first piece of a split result. -/
def consHead (c : Nat) : List (List Nat) → List (List Nat)
  | [] => [[c]]
  | l :: ls => (c :: l) :: ls

/-- Splitting a byte string on the two-byte CRLF separator, scanning left
to right, exactly as the JS string split on the CRLF string does in the
`Part` constructor. -/
def splitCRLF : List Nat → List (List Nat)
  | [] => [[]]
  | [c] => [[c]]
  | c :: d :: rest =>
    if c = 13 ∧ d = 10 then [] :: splitCRLF rest
    else consHead c (splitCRLF (d :: rest))

/-- First index of the colon byte in a header line (`line.indexOf` of the
colon character; `none` models the result -1). -/
def idxOfColon (l : List Nat) : Option Nat := l.findIdx? (fun b => b == 58)

/-- ASCII whitespace bytes removed by the string trim. -/
def isWSByte (b : Nat) : Bool :=
  b == 9 || b == 10 || b == 11 || b == 12 || b == 13 || b == 32

/-- Trim whitespace bytes from both ends, as the JS string trim does on the
header names handed to the `Headers` constructor. -/
def trimBytes (l : List Nat) : List Nat :=
  ((l.dropWhile isWSByte).reverse.dropWhile isWSByte).reverse

/-- Header extraction of the `Part` constructor: decode the raw header
bytes, split on CRLF, and for each line containing a colon push the pair
of the trimmed text before the first colon and the text after it. -/
def parseHeaderPairs (raw : List Nat) : List (List Nat × List Nat) :=
  (splitCRLF raw).filterMap (fun line =>
    match idxOfColon line with
    | none => none
    | some colon => some (trimBytes (line.take colon), line.drop (colon + 1)))

theorem splitCRLF_no_cr : ∀ raw : List Nat, 13 ∉ raw → splitCRLF raw = [raw] := by
  intro raw
  induction raw with
  | nil => intro _; rfl
  | cons c rest ih =>
    intro h
    have hc : c ≠ 13 := fun hh => h (hh ▸ List.mem_cons_self c rest)
    have hrest : 13 ∉ rest := fun hh => h (List.mem_cons_of_mem c hh)
    cases rest with
    | nil => rfl
    | cons d rest2 =>
      show (if c = 13 ∧ d = 10 then _ else consHead c (splitCRLF (d :: rest2)))
        = [c :: d :: rest2]
      rw [if_neg (fun hand => hc hand.1), ih hrest]
      rfl

/-- C9 (amended): header lines are split on CRLF only, so a header block
whose lines are separated by bare LF (no carriage return anywhere) parses
to at most one header pair; bare LF is not accepted as a header-line
terminator.  This replaces the claim that bare-LF and CRLF line
separators produce the same header map, name, filename and type, which
the counterexample refutes. -/
theorem c9_lf_not_line_separator (raw : List Nat) (h : 13 ∉ raw) :
    (parseHeaderPairs raw).length ≤ 1 := by
  unfold parseHeaderPairs
  rw [splitCRLF_no_cr raw h]
  rw [List.filterMap_cons]
  cases idxOfColon raw with
  | none => simp
  | some colon => simp

/-- Backwards matching against the end of the buffer succeeds exactly when
the needle's prefix of length `p + 1` equals the buffer's suffix of that
length. -/
theorem matchBackwards_last_iff (nd : Needle) (mem : List Nat) (p : Nat)
    (hp : p < nd.bytes.length) (hmem : mem ≠ []) :
    matchBackwards nd.bytes mem p (mem.length - 1) = true ↔
      (p + 1 ≤ mem.length ∧
        mem.drop (mem.length - 1 - p) = nd.bytes.take (p + 1)) := by
  have hlen : 0 < mem.length := List.length_pos.mpr hmem
  rw [matchBackwards_iff nd.bytes mem p (mem.length - 1) hp]
  constructor
  · rintro ⟨hpc, hall⟩
    have hple : p + 1 ≤ mem.length := by omega
    refine ⟨hple, ?_⟩
    apply List.ext_getElem?
    intro j
    by_cases hj : j ≤ p
    · rw [List.getElem?_drop, List.getElem?_take, if_pos (by omega)]
      exact (hall j hj).symm
    · rw [List.getElem?_drop, List.getElem?_take, if_neg (by omega)]
      exact List.getElem?_eq_none (by omega)
  · rintro ⟨hple, heq⟩
    refine ⟨by omega, ?_⟩
    intro k hk
    have h1 : (mem.drop (mem.length - 1 - p))[k]? = (nd.bytes.take (p + 1))[k]? := by
      rw [heq]
    rw [List.getElem?_drop] at h1
    rw [List.getElem?_take, if_pos (by omega)] at h1
    exact h1.symm

/-- C8: when the full-match search has failed and the tail of the live
region equals the proper needle prefix of length `p + 1` for the largest
such `p` (the hypotheses state the suffix match and its maximality), the
partial-suffix probe pins `start = end = valid - 1 - p`, and the shift the
stream then performs emits exactly the bytes before the pinned index while
the buffer retains the candidate prefix until more input decides the
match. -/
theorem c8_partial_suffix_pins (nd : Needle) (st : MState) (p : Nat)
    (hmem : st.mem ≠ [])
    (hple : p + 1 ≤ st.mem.length)
    (hproper : p < nd.endIdx)
    (hmatch : st.mem.drop (st.mem.length - 1 - p) = nd.bytes.take (p + 1))
    (hmax : ∀ q, p < q → q < nd.bytes.length → q + 1 ≤ st.mem.length →
      st.mem.drop (st.mem.length - 1 - q) ≠ nd.bytes.take (q + 1)) :
    (suffixProbe nd st).start = st.mem.length - 1 - p ∧
    (suffixProbe nd st).endIdx = st.mem.length - 1 - p ∧
    (mshift (suffixProbe nd st)).1 = st.mem.take (st.mem.length - 1 - p) ∧
    (mshift (suffixProbe nd st)).2.mem = st.mem.drop (st.mem.length - 1 - p) := by
  have hlen : 0 < st.mem.length := List.length_pos.mpr hmem
  have hpL : p < nd.bytes.length := lt_of_lt_of_le hproper (le_of_lt nd.endIdx_lt)
  have hpred : matchBackwards nd.bytes st.mem p (st.mem.length - 1) = true :=
    (matchBackwards_last_iff nd st.mem p hpL hmem).mpr ⟨hple, hmatch⟩
  have hlocp : p ∈ nd.loc (st.mem.getD (st.mem.length - 1) 0) := by
    apply loc_mem nd _ p hpL
    have hall := (matchBackwards_iff nd.bytes st.mem p (st.mem.length - 1) hpL).mp
      hpred
    have h3 := hall.2 p le_rfl
    rw [show st.mem.length - 1 - p + p = st.mem.length - 1 by omega] at h3
    rw [List.getElem?_eq_getElem hpL] at h3
    rw [List.getElem?_eq_getElem (by omega : st.mem.length - 1 < st.mem.length)] at h3
    have h4 := Option.some.inj h3
    rw [List.getD_eq_getElem nd.bytes 0 hpL,
      List.getD_eq_getElem st.mem 0 (by omega)]
    exact h4
  have hIs : (((nd.loc (st.mem.getD (st.mem.length - 1) 0)).reverse).find?
      (fun q => matchBackwards nd.bytes st.mem q (st.mem.length - 1))).isSome := by
    rw [List.find?_isSome]
    exact ⟨p, List.mem_reverse.mpr hlocp, hpred⟩
  obtain ⟨q, hq⟩ := Option.isSome_iff_exists.mp hIs
  have hqp0 := List.find?_some hq
  have hqp : matchBackwards nd.bytes st.mem q (st.mem.length - 1) = true := hqp0
  have hqmem : q ∈ nd.loc (st.mem.getD (st.mem.length - 1) 0) :=
    List.mem_reverse.mp (List.mem_of_find?_eq_some hq)
  have hqL : q < nd.bytes.length := by
    unfold Needle.loc at hqmem
    rw [List.mem_filter, List.mem_range] at hqmem
    exact hqmem.1
  have hqle : q ≤ p := by
    by_contra hgt
    push_neg at hgt
    have h5 := (matchBackwards_last_iff nd st.mem q hqL hmem).mp hqp
    exact hmax q hgt hqL h5.1 h5.2
  have hpleq : p ≤ q := by
    by_contra hlt
    push_neg at hlt
    have h6 := find?_pairwise_gt _ ((nd.loc (st.mem.getD (st.mem.length - 1) 0)).reverse)
      (List.pairwise_reverse.mpr (loc_pairwise nd _)) q hq p
      (List.mem_reverse.mpr hlocp) hlt
    rw [hpred] at h6
    simp at h6
  have hqp2 : q = p := le_antisymm hqle hpleq
  subst hqp2
  have hout : suffixProbe nd st =
      { st with
          start := st.mem.length - 1 - q
          endIdx := st.mem.length - 1 - q } := by
    unfold suffixProbe
    rw [if_neg hmem, hq]
  rw [hout]
  exact ⟨rfl, rfl, rfl, rfl⟩

deriving instance DecidableEq for Except

/-- Build a first-occurrence fact from a decidable occurrence check and a
decidable bounded search below it. -/
theorem firstOccAt_of_below (pat hay : List Nat) (s : Nat)
    (h1 : occursAt pat hay s) (h2 : ∀ t, t < s → ¬ occursAt pat hay t) :
    firstOccAt pat hay s := by
  refine ⟨h1, ?_⟩
  intro t ht
  by_contra hc
  push_neg at hc
  exact h2 t hc ht

theorem findConcatF_some_start0 (opts : MpOptions) (nd : Needle) :
    ∀ fuel st b st', findConcatF opts nd fuel st = .ok (some b, st') →
      st'.start = 0 ∧ st'.endIdx = 0 := by
  intro fuel
  induction fuel with
  | zero =>
    intro st b st' h
    unfold findConcatF at h
    injection h with h1
    simp at h1
  | succ fuel ih =>
    intro st b st' h
    unfold findConcatF at h
    rcases hf : mfind nd st with ⟨o, st1⟩
    rw [hf] at h
    cases o with
    | some before =>
      simp only [] at h
      injection h with h1
      injection h1 with ha hb
      obtain ⟨cursor, e1, e2, e3, e4, e5, e6, e7, e8⟩ :=
        mfind_some_inv nd st before st1 hf
      rw [← hb]
      exact ⟨e4, e5⟩
    | none =>
      simp only [] at h
      cases hr : mread opts true st1 with
      | error e =>
        rw [hr] at h
        simp at h
      | ok pair =>
        rw [hr] at h
        obtain ⟨done, st2⟩ := pair
        cases done with
        | true =>
          simp only [] at h
          injection h with h1
          simp at h1
        | false =>
          simp only [] at h
          exact ih st2 b st' h

/-- C1: for every reachable per-part state — the iterator creates a part's
body stream immediately after the header search shifts the buffer past the
part's CRLFCRLF terminator, so the flat remainder of that state starts at
the byte after the CRLFCRLF — a completed read of the body stream yields
chunks whose concatenation equals exactly the flat remainder's bytes
strictly before the next occurrence of the part-terminating boundary
needle, and the parse continues from the bytes after that needle. -/
theorem c1_part_body_exact (opts : MpOptions) (boundary : Needle)
    (st : MState) (headers : List Nat) (st1 : MState) (s : Nat)
    (chunks : List (List Nat)) (st2 : MState)
    (hH : findConcat opts newLineNeedle st = .ok (some headers, st1))
    (hfo : firstOccAt boundary.bytes (flatRest st1) s)
    (hB : drainBody opts boundary st1 = .ok (chunks, st2)) :
    chunks.flatten = (flatRest st1).take s ∧
    flatRest st2 = (flatRest st1).drop (s + boundary.bytes.length) := by
  have h0 : st1.start = 0 ∧ st1.endIdx = 0 := by
    unfold findConcat at hH
    exact findConcatF_some_start0 opts newLineNeedle (st.source.length + 1) st
      headers st1 hH
  have hc := drainBody_canon opts boundary st1 s chunks st2 hfo
    (by rw [h0.1]; exact Nat.zero_le s) hB
  exact ⟨hc.1, hc.2.1⟩

def c1state : MState :=
  ⟨[72, 13, 10, 13, 10, 97, 98, 13, 10, 45, 45, 66, 122], 66560, 0, 0, 0, []⟩

theorem c1_part_body_exact_witness :
    (∃ st1, findConcat defaultOptions newLineNeedle c1state
        = .ok (some [72], st1) ∧
      firstOccAt (boundaryNeedle [66]).bytes (flatRest st1) 2 ∧
      drainBody defaultOptions (boundaryNeedle [66]) st1
        = .ok ([[97, 98]], ⟨[122], 66560, 0, 0, 0, []⟩) ∧
      ([[97, 98]] : List (List Nat)).flatten = (flatRest st1).take 2 ∧
      flatRest ⟨[122], 66560, 0, 0, 0, []⟩
        = (flatRest st1).drop (2 + (boundaryNeedle [66]).bytes.length)) := by
  refine ⟨⟨[97, 98, 13, 10, 45, 45, 66, 122], 66560, 0, 0, 0, []⟩, ?_, ?_, ?_, ?_⟩
  · decide
  · exact firstOccAt_of_below _ _ _ (by decide) (by decide)
  · decide
  · exact c1_part_body_exact defaultOptions (boundaryNeedle [66]) c1state [72]
      ⟨[97, 98, 13, 10, 45, 45, 66, 122], 66560, 0, 0, 0, []⟩ 2
      [[97, 98]] ⟨[122], 66560, 0, 0, 0, []⟩ (by decide)
      (firstOccAt_of_below _ _ _ (by decide) (by decide)) (by decide)

/-- Wire bytes of a multipart body with boundary token the single byte 66:
one part, terminal marker, and an epilogue containing a CRLFCRLF pair. -/
def c2wire : List Nat :=
  [45, 45, 66, 13, 10, 72, 13, 10, 13, 10, 120, 13, 10, 45, 45, 66,
   45, 45, 13, 10, 65, 13, 10, 13, 10, 67]

/-- The same wire bytes as one chunk. -/
def c2chunksA : List (List Nat) := [c2wire]

/-- The same wire bytes split into two non-empty chunks, cutting directly
after the part-terminating boundary. -/
def c2chunksB : List (List Nat) :=
  [[45, 45, 66, 13, 10, 72, 13, 10, 13, 10, 120, 13, 10, 45, 45, 66],
   [45, 45, 13, 10, 65, 13, 10, 13, 10, 67]]

/-- C2 counterexample: the same wire bytes, split into two different
sequences of non-empty chunks, parse to different observable Part
sequences — one part versus two — because the terminal-marker peek sees
fewer than two buffered bytes under the second chunking and the parser
then reads the epilogue as another part. -/
def c2stA1 : MState :=
  ⟨[72, 13, 10, 13, 10, 120, 13, 10, 45, 45, 66, 45, 45, 13, 10, 65, 13, 10,
    13, 10, 67], 66560, 0, 0, 26, []⟩

def c2stA2 : MState :=
  ⟨[120, 13, 10, 45, 45, 66, 45, 45, 13, 10, 65, 13, 10, 13, 10, 67],
   66560, 0, 0, 26, []⟩

def c2stA3 : MState :=
  ⟨[45, 45, 13, 10, 65, 13, 10, 13, 10, 67], 66560, 0, 0, 26, []⟩

def c2stB1 : MState :=
  ⟨[72, 13, 10, 13, 10, 120, 13, 10, 45, 45, 66], 66560, 0, 0, 16,
   [[45, 45, 13, 10, 65, 13, 10, 13, 10, 67]]⟩

def c2stB2 : MState :=
  ⟨[120, 13, 10, 45, 45, 66], 66560, 0, 0, 16,
   [[45, 45, 13, 10, 65, 13, 10, 13, 10, 67]]⟩

def c2stB3 : MState :=
  ⟨[], 66560, 0, 0, 16, [[45, 45, 13, 10, 65, 13, 10, 13, 10, 67]]⟩

def c2stB4 : MState := ⟨[67], 66560, 0, 0, 26, []⟩

theorem c2_parseA : multipart defaultOptions [66] c2chunksA
    = .ok ([⟨[72], [[120]]⟩], c2stA3) := by
  unfold multipart iterate
  rw [show findConcat defaultOptions (openingNeedle [66]) (initState c2chunksA)
    = .ok (some [], c2stA1) from by decide]
  simp only []
  rw [show weight c2stA1 + 1 = 21 + 1 from by decide]
  rw [iterLoopF]
  rw [show findConcat defaultOptions newLineNeedle c2stA1
    = .ok (some [72], c2stA2) from by decide]
  simp only []
  rw [if_neg (show ¬ defaultOptions.parts = some 0 from by decide)]
  rw [show drainBody defaultOptions (boundaryNeedle [66]) c2stA2
    = .ok ([[120]], c2stA3) from by decide]
  simp only []
  rw [if_pos (show 1 < c2stA3.mem.length ∧ c2stA3.mem.getD 0 0 = 45 ∧
    c2stA3.mem.getD 1 0 = 45 from by decide)]
  rw [show drainEpilogue defaultOptions c2stA3 = .ok c2stA3 from by decide]

theorem c2_parseB : multipart defaultOptions [66] c2chunksB
    = .ok ([⟨[72], [[120]]⟩, ⟨[45, 45, 13, 10, 65], []⟩], c2stB4) := by
  unfold multipart iterate
  rw [show findConcat defaultOptions (openingNeedle [66]) (initState c2chunksB)
    = .ok (some [], c2stB1) from by decide]
  simp only []
  rw [show weight c2stB1 + 1 = 22 + 1 from by decide]
  rw [iterLoopF]
  rw [show findConcat defaultOptions newLineNeedle c2stB1
    = .ok (some [72], c2stB2) from by decide]
  simp only []
  rw [if_neg (show ¬ defaultOptions.parts = some 0 from by decide)]
  rw [show drainBody defaultOptions (boundaryNeedle [66]) c2stB2
    = .ok ([[120]], c2stB3) from by decide]
  simp only []
  rw [if_neg (show ¬ (1 < c2stB3.mem.length ∧ c2stB3.mem.getD 0 0 = 45 ∧
    c2stB3.mem.getD 1 0 = 45) from by decide)]
  rw [show (22 : Nat) = 21 + 1 from by decide]
  rw [iterLoopF]
  rw [show findConcat defaultOptions newLineNeedle c2stB3
    = .ok (some [45, 45, 13, 10, 65], c2stB4) from by decide]
  simp only []
  rw [if_neg (show ¬ defaultOptions.parts = some 1 from by decide)]
  rw [show drainBody defaultOptions (boundaryNeedle [66]) c2stB4
    = .ok ([], c2stB4) from by decide]
  simp only []
  rw [if_neg (show ¬ (1 < c2stB4.mem.length ∧ c2stB4.mem.getD 0 0 = 45 ∧
    c2stB4.mem.getD 1 0 = 45) from by decide)]
  rw [show (21 : Nat) = 20 + 1 from by decide]
  rw [iterLoopF]
  rw [show findConcat defaultOptions newLineNeedle c2stB4
    = .ok (none, c2stB4) from by decide]

/-- C2 counterexample: the same wire bytes, split into two different
sequences of non-empty chunks, parse to different observable Part
sequences — one part versus two — because the terminal-marker peek sees
fewer than two buffered bytes under the second chunking and the parser
then reads the epilogue as another part. -/
theorem c2_chunking_counterexample :
    c2chunksA.flatten = c2chunksB.flatten ∧
    (∀ c ∈ c2chunksA, c ≠ []) ∧ (∀ c ∈ c2chunksB, c ≠ []) ∧
    partsCount (multipart defaultOptions [66] c2chunksA) = some 1 ∧
    partsCount (multipart defaultOptions [66] c2chunksB) = some 2 := by
  refine ⟨by decide, by decide, by decide, ?_, ?_⟩
  · rw [c2_parseA]; rfl
  · rw [c2_parseB]; rfl

/-- C2 (amended): successful searches and body drains depend only on the
flattened remaining bytes, not on their chunking: from two states with the
same flat remainder and reset scan positions, a header search succeeding
under both chunkings returns the same bytes and leaves the same flat
remainder, and a body drain whose terminating boundary occurs in the flat
remainder yields the same concatenated body bytes under both chunkings.
The full Part sequences may nevertheless differ, because the terminal
two-dash peek and the memory and payload limits are sensitive to chunk
boundaries, as the counterexample shows. -/
theorem c2_chunking_canonical (opts : MpOptions) (nd : Needle)
    (stA stB : MState) (hflat : flatRest stA = flatRest stB)
    (hA0 : stA.start = 0) (hB0 : stB.start = 0) :
    (∀ bA rA bB rB, findConcat opts nd stA = .ok (some bA, rA) →
      findConcat opts nd stB = .ok (some bB, rB) →
      bA = bB ∧ flatRest rA = flatRest rB) ∧
    (∀ s cA rA cB rB, firstOccAt nd.bytes (flatRest stA) s →
      drainBody opts nd stA = .ok (cA, rA) →
      drainBody opts nd stB = .ok (cB, rB) →
      cA.flatten = cB.flatten ∧ flatRest rA = flatRest rB) := by
  constructor
  · intro bA rA bB rB hfA hfB
    obtain ⟨s, hs⟩ := findConcat_some_occ opts nd stA bA rA hfA
    have hcA := findConcat_canon opts nd stA s (some bA, rA) hs
      (by rw [hA0]; exact Nat.zero_le s) hfA
    have hsB : firstOccAt nd.bytes (flatRest stB) s := by
      rw [← hflat]
      exact hs
    have hcB := findConcat_canon opts nd stB s (some bB, rB) hsB
      (by rw [hB0]; exact Nat.zero_le s) hfB
    have hb1 : some bA = some ((flatRest stA).take s) := hcA.1
    have hb2 : some bB = some ((flatRest stB).take s) := hcB.1
    injection hb1 with hb1
    injection hb2 with hb2
    constructor
    · rw [hb1, hb2, hflat]
    · rw [hcA.2.1, hcB.2.1, hflat]
  · intro s cA rA cB rB hs hdA hdB
    have hcA := drainBody_canon opts nd stA s cA rA hs
      (by rw [hA0]; exact Nat.zero_le s) hdA
    have hsB : firstOccAt nd.bytes (flatRest stB) s := by
      rw [← hflat]
      exact hs
    have hcB := drainBody_canon opts nd stB s cB rB hsB
      (by rw [hB0]; exact Nat.zero_le s) hdB
    constructor
    · rw [hcA.1, hcB.1, hflat]
    · rw [hcA.2.1, hcB.2.1, hflat]

def c2stA : MState := ⟨[97, 13, 10, 13, 10, 98], 66560, 0, 0, 0, []⟩

def c2stB : MState := ⟨[97, 13], 66560, 0, 0, 0, [[10, 13, 10, 98]]⟩

theorem c2_chunking_canonical_witness :
    flatRest c2stA = flatRest c2stB ∧ c2stA.start = 0 ∧ c2stB.start = 0 ∧
    findConcat defaultOptions newLineNeedle c2stA
      = .ok (some [97], ⟨[98], 66560, 0, 0, 0, []⟩) ∧
    findConcat defaultOptions newLineNeedle c2stB
      = .ok (some [97], ⟨[98], 66560, 0, 0, 4, []⟩) ∧
    ([97] : List Nat) = [97] ∧
    flatRest ⟨[98], 66560, 0, 0, 0, []⟩ = flatRest ⟨[98], 66560, 0, 0, 4, []⟩ := by
  refine ⟨by decide, rfl, rfl, by decide, by decide, ?_, ?_⟩
  · exact ((c2_chunking_canonical defaultOptions newLineNeedle c2stA c2stB
      (by decide) rfl rfl).1 [97] ⟨[98], 66560, 0, 0, 0, []⟩ [97]
      ⟨[98], 66560, 0, 0, 4, []⟩ (by decide) (by decide)).1
  · exact ((c2_chunking_canonical defaultOptions newLineNeedle c2stA c2stB
      (by decide) rfl rfl).1 [97] ⟨[98], 66560, 0, 0, 0, []⟩ [97]
      ⟨[98], 66560, 0, 0, 4, []⟩ (by decide) (by decide)).2

def c3st : MState := ⟨[104, 101, 108, 108, 111], 66560, 0, 0, 5, []⟩

/-- C3 counterexample: with the source exhausted while the buffered bytes
still contain no occurrence of the part-terminating boundary needle, the
body drain returns successfully with no chunks instead of failing — the
pull callback closes the stream normally on a done read, and no
unexpected-end-of-file error exists in the code. -/
theorem c3_eof_counterexample :
    c3st.source = [] ∧
    (∀ s, ¬ occursAt (boundaryNeedle [66]).bytes (flatRest c3st) s) ∧
    drainBody defaultOptions (boundaryNeedle [66]) c3st = .ok ([], c3st) := by
  refine ⟨rfl, ?_, by decide⟩
  intro s hocc
  have h1 : s + (boundaryNeedle [66]).bytes.length ≤ (flatRest c3st).length :=
    hocc.1
  have h5 : (boundaryNeedle [66]).bytes.length = 5 := by decide
  have h5' : (flatRest c3st).length = 5 := by decide
  have hs0 : s = 0 := by omega
  subst hs0
  exact (by decide : ¬ occursAt (boundaryNeedle [66]).bytes (flatRest c3st) 0)
    hocc

/-- C3 (amended): if the source is exhausted while a part's body stream is
still searching for its terminating boundary needle, the stream closes
normally — the drain completes without any error — rather than failing
with an unexpected-end-of-file error; the remaining buffered bytes are
silently truncated. -/
theorem c3_eof_closes_normally (opts : MpOptions) (nd : Needle) (st : MState)
    (hnil : st.source = []) : ∃ res, drainBody opts nd st = .ok res :=
  drainBody_nil_ok opts nd st hnil

theorem c3_eof_closes_normally_witness :
    (⟨[104, 101], 66560, 0, 0, 2, []⟩ : MState).source = [] ∧
    ∃ res, drainBody defaultOptions (boundaryNeedle [66])
      ⟨[104, 101], 66560, 0, 0, 2, []⟩ = .ok res :=
  ⟨rfl, c3_eof_closes_normally defaultOptions (boundaryNeedle [66])
    ⟨[104, 101], 66560, 0, 0, 2, []⟩ rfl⟩

/-- C4: every source chunk is counted against the payload option before any
use: a read that would push the running total past the limit raises the
payload error; a read that succeeds leaves the total within the limit
(or reports done without touching the state); and a whole parse that
completes without error, with the constructor's allocation viable, ends
with the cumulative count within the limit — processing never continues
past an exceeded count. -/
theorem c4_payload_limit (opts : MpOptions) :
    (∀ a st chunk rest, st.source = chunk :: rest →
      opts.payload < st.payloadSize + chunk.length →
      mread opts a st = .error .payloadTooLarge) ∧
    (∀ a st d st', mread opts a st = .ok (d, st') →
      st'.payloadSize ≤ opts.payload ∨ st' = st) ∧
    (∀ boundary source parts stF, 65 * 1024 ≤ opts.memory →
      multipart opts boundary source = .ok (parts, stF) →
      stF.payloadSize ≤ opts.payload) := by
  refine ⟨fun a st chunk rest hs hp =>
    mread_payload_error opts a st chunk rest hs hp, ?_, ?_⟩
  · intro a st d st' h
    rcases mread_ok_inv opts a st d st' h with ⟨-, he, -⟩ |
      ⟨-, c, r, -, -, hple, -, -, -, -⟩
    · exact .inr he
    · exact .inl hple
  · intro boundary source parts stF h65 h
    exact (stInv_multipart opts boundary source parts stF h65 h).2

theorem c4_payload_limit_witness :
    mread ⟨66560, 3, none⟩ true ⟨[], 66560, 0, 0, 0, [[1, 2, 3, 4]]⟩
      = .error .payloadTooLarge ∧
    ((⟨[1, 2], 66560, 0, 0, 2, []⟩ : MState).payloadSize ≤ 3 ∨
      (⟨[1, 2], 66560, 0, 0, 2, []⟩ : MState)
        = ⟨[], 66560, 0, 0, 0, [[1, 2]]⟩) ∧
    (initState ([] : List (List Nat))).payloadSize ≤ 3 :=
  ⟨(c4_payload_limit ⟨66560, 3, none⟩).1 true ⟨[], 66560, 0, 0, 0, [[1, 2, 3, 4]]⟩
      [1, 2, 3, 4] [] rfl (by decide),
   (c4_payload_limit ⟨66560, 3, none⟩).2.1 true ⟨[], 66560, 0, 0, 0, [[1, 2]]⟩
      false ⟨[1, 2], 66560, 0, 0, 2, []⟩ (by decide),
   (c4_payload_limit ⟨66560, 3, none⟩).2.2 [66] [] [] (initState [])
      (by decide) (by decide)⟩

/-- C5: the buffer indices are nested below the memory option — start ≤
end ≤ valid ≤ capacity ≤ memory ceiling, with zero a lower bound by the
natural types — at the constructor, and every buffer operation preserves
this well-formedness; appending a chunk whose required space exceeds the
ceiling raises the memory error instead of writing the bytes; and every
completed parse ends well formed. -/
theorem c5_buffer_invariants (opts : MpOptions) :
    (∀ source st, mkMultipart opts source = some st → BufWF opts st) ∧
    (∀ a st d st', mread opts a st = .ok (d, st') → BufWF opts st →
      BufWF opts st') ∧
    (∀ nd st o st', mfind nd st = (o, st') → BufWF opts st →
      BufWF opts st') ∧
    (∀ nd st, BufWF opts st → BufWF opts (suffixProbe nd st)) ∧
    (∀ st, BufWF opts st → BufWF opts (mshift st).2) ∧
    (∀ st chunk rest, st.source = chunk :: rest →
      st.payloadSize + chunk.length ≤ opts.payload → st.cap ≤ opts.memory →
      opts.memory < st.mem.length + chunk.length →
      mread opts true st = .error .memoryLimit) ∧
    (∀ boundary source parts stF, 65 * 1024 ≤ opts.memory →
      multipart opts boundary source = .ok (parts, stF) → BufWF opts stF) :=
  ⟨fun source st h => bufWF_init opts source st h,
   fun a st d st' h hwf => bufWF_mread opts a st d st' h hwf,
   fun nd st o st' h hwf => bufWF_mfind opts nd st o st' h hwf,
   fun nd st hwf => bufWF_suffixProbe opts nd st hwf,
   fun st hwf => bufWF_mshift opts st hwf,
   fun st chunk rest hs hp hcap hm =>
     mread_memory_error opts st chunk rest hs hp hm hcap,
   fun boundary source parts stF h65 h =>
     (stInv_multipart opts boundary source parts stF h65 h).1⟩

theorem c5_buffer_invariants_witness :
    BufWF ⟨66560, 100, none⟩ (initState []) ∧
    mread ⟨1, 100, none⟩ true ⟨[], 1, 0, 0, 0, [[7, 8]]⟩
      = .error .memoryLimit :=
  ⟨(c5_buffer_invariants ⟨66560, 100, none⟩).1 [] (initState []) (by decide),
   (c5_buffer_invariants ⟨1, 100, none⟩).2.2.2.2.2.1 ⟨[], 1, 0, 0, 0, [[7, 8]]⟩
      [7, 8] [] rfl (by decide) (by decide) (by decide)⟩

def nd256 : Needle := ⟨List.range 256, by decide⟩

set_option maxRecDepth 4096 in

/-- C6 counterexample: two failures of the original claim.  The skip entry
for the byte at the needle's last position is not always the default
length L: the constructor writes an entry for every position except the
last itself, so in the CRLFCRLF needle the final byte 10 also occurs at
position 1 and its stored entry is 2, not the length 4.  And the table is
a 256-entry byte array whose entries wrap mod 256: for the needle of the
256 distinct byte values the last byte occurs nowhere earlier, yet its
stored default entry is 0, not the length 256. -/
theorem c6_skip_counterexample :
    (newLineNeedle.bytes.getD newLineNeedle.endIdx 0 = 10 ∧
      newLineNeedle.bytes.length = 4 ∧
      newLineNeedle.skipU8 10 = 2) ∧
    (nd256.bytes.length = 256 ∧
      nd256.bytes.getD nd256.endIdx 0 = 255 ∧
      (∀ p, p < nd256.endIdx → nd256.bytes.getD p 0 ≠ 255) ∧
      nd256.skipU8 255 = 0) := by
  refine ⟨by decide, by decide, by decide, ?_, by decide⟩
  intro p hp
  have hp' : p < 255 := hp
  have hg : nd256.bytes.getD p 0 = p := by
    show (List.range 256).getD p 0 = p
    rw [List.getD_eq_getElem (List.range 256) 0 (by
      rw [List.length_range]
      omega)]
    exact List.getElem_range p (by
      rw [List.length_range]
      omega)
  omega

/-- C6 (amended): the skip table is a 256-entry byte array, so each entry
holds its written value mod 256.  When byte b occurs before the last
position, with p the largest such position, the stored entry is
(last − p) mod 256; when b occurs at no position before the last — in
particular when the byte at the last position occurs nowhere else — the
stored entry is the default fill, the needle length mod 256.  For needles
shorter than 256 bytes nothing wraps and these are exactly last − p and
L, but the byte at the last position takes the default only in the
occurs-nowhere-earlier case, not unconditionally as the original claim
states, and a 256-byte needle's default entry is 0, not L. -/
theorem c6_skip_table (nd : Needle) (b : Nat) :
    (∀ p, p < nd.endIdx → nd.bytes.getD p 0 = b →
      (∀ q, p < q → q < nd.endIdx → nd.bytes.getD q 0 ≠ b) →
      nd.skipU8 b = (nd.endIdx - p) % 256) ∧
    ((∀ p, p < nd.endIdx → nd.bytes.getD p 0 ≠ b) →
      nd.skipU8 b = nd.bytes.length % 256) := by
  constructor
  · intro p hp hpb hmax
    rw [Needle.skipU8_eq_mod nd b, nd.skip_eq_of_max b p hp hpb hmax]
  · intro hall
    rw [Needle.skipU8_eq_mod nd b, nd.skip_eq_default b hall]

theorem c6_skip_table_witness :
    (boundaryNeedle [66]).skipU8 45 = ((boundaryNeedle [66]).endIdx - 3) % 256 ∧
    (boundaryNeedle [66]).skipU8 66 = (boundaryNeedle [66]).bytes.length % 256 :=
  ⟨(c6_skip_table (boundaryNeedle [66]) 45).1 3 (by decide) (by decide)
      (by
        intro q h1 h2
        have h2' : q < 4 := h2
        omega),
   (c6_skip_table (boundaryNeedle [66]) 66).2
      (by
        intro p hp
        have hp' : p < 4 := hp
        interval_cases p <;> decide)⟩

/-- C7 counterexample: in the case L = valid the failed search records
start = end = 0, not 1 as the claimed formula max(0, valid − (L − 1))
gives: the source's fallback uses a strict comparison, so the straddle
formula applies only when L < valid. -/
theorem c7_fallback_counterexample :
    mfind newLineNeedle ⟨[97, 97, 97, 97], 66560, 0, 0, 0, []⟩
      = (none, ⟨[97, 97, 97, 97], 66560, 0, 0, 0, []⟩) ∧
    newLineNeedle.bytes.length = 4 ∧
    ¬ (0 : Nat) = max 0 (4 - (4 - 1)) := by decide

/-- C7 (amended): when the full-match search exits the window without a
match it records start = end = valid − (L − 1) when L < valid and 0
otherwise — so in the case L = valid the recorded value is 0, not 1 — and
indeed no occurrence of the needle begins at or after the previous scan
start. -/
theorem c7_fallback (nd : Needle) (st st' : MState)
    (h : mfind nd st = (none, st')) :
    st'.start = st'.endIdx ∧
    st'.start = (if nd.bytes.length < st.mem.length
      then st.mem.length - (nd.bytes.length - 1) else 0) ∧
    ∀ t, st.start ≤ t → ¬ occursAt nd.bytes st.mem t := by
  obtain ⟨hloop, hmem, hcap, hpay, hsrc, heq, hval⟩ := mfind_none_inv nd st st' h
  refine ⟨heq, hval, ?_⟩
  intro t ht hocc
  have hspec := (findLoop_spec nd st.mem (st.mem.length + 1)
    (st.start + nd.endIdx) (by omega) (Nat.le_add_left _ _)).1 hloop t hocc
  omega

def c7st : MState := ⟨[97, 98, 99, 100, 101], 66560, 0, 0, 0, []⟩

def c7st2 : MState := ⟨[97, 98, 99, 100, 101], 66560, 2, 2, 0, []⟩

theorem c7_fallback_witness :
    c7st2.start = c7st2.endIdx ∧
    c7st2.start = (if newLineNeedle.bytes.length < c7st.mem.length
      then c7st.mem.length - (newLineNeedle.bytes.length - 1) else 0) ∧
    ∀ t, c7st.start ≤ t → ¬ occursAt newLineNeedle.bytes c7st.mem t :=
  c7_fallback newLineNeedle c7st c7st2 (by decide)

def c8st : MState := ⟨[97, 98, 13, 10, 45], 66560, 0, 0, 0, []⟩

theorem c8_partial_suffix_pins_witness :
    (suffixProbe (boundaryNeedle [66]) c8st).start = 2 ∧
    (suffixProbe (boundaryNeedle [66]) c8st).endIdx = 2 ∧
    (mshift (suffixProbe (boundaryNeedle [66]) c8st)).1 = [97, 98] ∧
    (mshift (suffixProbe (boundaryNeedle [66]) c8st)).2.mem = [13, 10, 45] :=
  c8_partial_suffix_pins (boundaryNeedle [66]) c8st 2
    (by decide) (by decide) (by decide) (by decide)
    (by
      intro q h1 h2 h3
      have h2' : q < 5 := h2
      interval_cases q <;> revert h3 <;> decide)

/-- C9 counterexample: the same header lines joined with CRLF parse to two
header pairs, but joined with bare LF they parse to a single pair whose
value still contains the LF and the second line: the Part constructor
splits the decoded header block on the CRLF string only, so bare LF is not
accepted as a header-line terminator and the resulting header pairs
differ. -/
theorem c9_lf_counterexample :
    parseHeaderPairs [97, 58, 120, 13, 10, 98, 58, 121]
      = [([97], [120]), ([98], [121])] ∧
    parseHeaderPairs [97, 58, 120, 10, 98, 58, 121]
      = [([97], [120, 10, 98, 58, 121])] := by decide

theorem c9_lf_not_line_separator_witness :
    (13 ∉ ([97, 58, 120, 10, 98, 58, 121] : List Nat)) ∧
    (parseHeaderPairs [97, 58, 120, 10, 98, 58, 121]).length ≤ 1 :=
  ⟨by decide, c9_lf_not_line_separator [97, 58, 120, 10, 98, 58, 121]
    (by decide)⟩

/-- C10: every chunk a part-body pull enqueues is non-empty — both enqueue
sites are guarded by an emptiness check — and for a part whose body is
empty, the boundary needle occurring at the very start of the remaining
bytes, the first pull closes the stream without yielding any chunk. -/
theorem c10_no_empty_chunks (opts : MpOptions) (nd : Needle) (st : MState)
    (d : Bool) (r : PullResult) (h : pullStep opts nd st d = .ok r) :
    (∀ c ∈ r.chunks, c ≠ []) ∧
    (d = false → st.start = 0 → firstOccAt nd.bytes (flatRest st) 0 →
      r.closed = true ∧ r.chunks = []) := by
  refine ⟨pullStep_chunks_ne_nil opts nd st d r h, ?_⟩
  intro hd h0 hfo
  subst hd
  have hc := pullStep_canon opts nd st 0 r hfo (by rw [h0]) h
  cases hcl : r.closed with
  | false =>
    obtain ⟨k, hk0, hk1, -⟩ := hc.2 hcl
    exact absurd hk0 (by omega)
  | true =>
    refine ⟨rfl, ?_⟩
    have hflat : r.chunks.flatten = [] := (hc.1 hcl).1
    have hne := pullStep_chunks_ne_nil opts nd st false r h
    cases hch : r.chunks with
    | nil => rfl
    | cons c cs =>
      rw [hch] at hflat
      have hflat2 : c ++ cs.flatten = [] := hflat
      have hc0 : c = [] := (List.append_eq_nil.mp hflat2).1
      exact absurd hc0 (hne c (by rw [hch]; exact List.mem_cons_self c cs))

def c10st : MState := ⟨[13, 10, 45, 45, 66, 120], 66560, 0, 0, 0, []⟩

theorem c10_no_empty_chunks_witness :
    (∀ c ∈ (⟨[], true, ⟨[120], 66560, 0, 0, 0, []⟩⟩ : PullResult).chunks,
      c ≠ []) ∧
    ((⟨[], true, ⟨[120], 66560, 0, 0, 0, []⟩⟩ : PullResult).closed = true ∧
      (⟨[], true, ⟨[120], 66560, 0, 0, 0, []⟩⟩ : PullResult).chunks = []) := by
  have h := c10_no_empty_chunks defaultOptions (boundaryNeedle [66]) c10st false
    ⟨[], true, ⟨[120], 66560, 0, 0, 0, []⟩⟩ (by decide)
  exact ⟨h.1, h.2 rfl rfl ⟨by decide, fun t _ => Nat.zero_le t⟩⟩
